import Mathlib

/-!
Verification of the `tscg` code-flow-graph builder (`src/graph.ts`, compiled
copy in `src/unnamed/part_000`).

The repository builds a directed graph of nodes (functions, calls, arguments,
objects) and edges (`Child`, `Argument`, `Call`) out of a TypeScript project.
All interaction with the `ts-morph` front end (the spec's "Source Model"
collaborator) happens through a fixed set of queries; here that collaborator
is modelled as a `SourceModel` record of pure functions over construct
identities (`Nat`).  Constructs are compared by identity in the source
(`Map<Node, NodeInfo>` keyed by object reference), which the `Nat` identity
models exactly.

The graph engine itself (`CodeFlowGraph`) is translated function by function:
`addNodeIsNew`, `addEdgeIsNew`, the `process*` family, `initialize` (named
`buildGraph` here because `initialize` is a reserved word in Lean), and the
serializer `nodesToJSON` / `edgesToJSON`.  JavaScript `Map`s are modelled as
insertion-ordered association lists, mutation as explicit state passing, and
thrown errors as `Except BuildError`.  The recursive `process*` functions are
given an explicit recursion budget (`fuel`); running out of budget is the
distinguished error `fuelExhausted`, which is an artifact of the embedding
and not a behavior of the program (the termination theorem shows a
sufficiently large budget is never exhausted).
-/

namespace TSCG

/-- Decidable equality for `Except`, written without tactics so that `decide`
can evaluate concrete runs of the builder. -/
instance exceptDecEq {ε α : Type} [DecidableEq ε] [DecidableEq α] :
    DecidableEq (Except ε α) := fun
  | .error a, .error b =>
    match decEq a b with
    | isTrue h => isTrue (h ▸ rfl)
    | isFalse h => isFalse (fun hh => h (Except.error.inj hh))
  | .error _, .ok _ => isFalse Except.noConfusion
  | .ok _, .error _ => isFalse Except.noConfusion
  | .ok a, .ok b =>
    match decEq a b with
    | isTrue h => isTrue (h ▸ rfl)
    | isFalse h => isFalse (fun hh => h (Except.ok.inj hh))

/-- `enum NodeType` (graph.ts:5-11). -/
inductive NodeType
  | Function
  | Call
  | Argument
  | Object
  | Any
deriving DecidableEq, Repr

/-- `nodeTypeToString` (graph.ts:13-28); the `default` branch of the switch is
unreachable because the enum is closed. -/
def nodeTypeToString : NodeType → String
  | .Function => "Function"
  | .Call => "Call"
  | .Argument => "Argument"
  | .Object => "Object"
  | .Any => "Any"

/-- `enum EdgeType` (graph.ts:69-73). -/
inductive EdgeType
  | Child
  | Argument
  | Call
deriving DecidableEq, Repr

/-- `edgeTypeToString` (graph.ts:75-86). -/
def edgeTypeToString : EdgeType → String
  | .Child => "Child"
  | .Argument => "Argument"
  | .Call => "Call"

/-- The `ts.SyntaxKind` values the program inspects, plus `Other` for every
kind it never branches on. -/
inductive SyntaxKind
  | Identifier
  | CallExpression
  | ArrowFunction
  | FunctionExpression
  | VariableDeclaration
  | FunctionDeclaration
  | PropertyAccessExpression
  | Other
deriving DecidableEq, Repr

/-- One entry of `CodeFlowGraph.nodes`: the data of a `NodeInfo` object
(graph.ts:30-67).  `construct` is the `ts-morph` node the `NodeInfo` wraps
(its identity); `incoming` / `outgoing` hold edge ids in insertion order
(the source stores `EdgeInfo` object references; edges are immutable after
creation, so the id determines the edge). -/
structure NodeData where
  construct : Nat
  id : Nat
  type : NodeType
  incoming : List Nat
  outgoing : List Nat
deriving DecidableEq, Repr

/-- One entry of `CodeFlowGraph.edges`: the data of an `EdgeInfo` object
(graph.ts:88-102).  `source` / `destination` are node ids. -/
structure EdgeData where
  id : Nat
  source : Nat
  destination : Nat
  type : EdgeType
deriving DecidableEq, Repr

/-- The mutable state of a `CodeFlowGraph` (graph.ts:104-128): the four maps
(as insertion-ordered association lists, matching JS `Map` iteration order)
and the two id counters.  `edgeInfo` is declared and read by `addEdgeIsNew`
but no statement of the program ever inserts into it. -/
structure GraphState where
  nodes : List NodeData
  nodeToInfo : List (Nat × Nat)
  edges : List EdgeData
  edgeInfo : List ((Nat × Nat) × Nat)
  NEXT_NODE_ID : Nat
  NEXT_EDGE_ID : Nat
deriving DecidableEq, Repr

/-- The state built by the `CodeFlowGraph` constructor (graph.ts:120-128). -/
def emptyGraph : GraphState :=
  { nodes := [], nodeToInfo := [], edges := [], edgeInfo := [],
    NEXT_NODE_ID := 0, NEXT_EDGE_ID := 0 }

/-- `Map.get` on an association list (first matching key wins, as in JS). -/
def assocLookup {κ : Type} [DecidableEq κ] (l : List (κ × Nat)) (k : κ) : Option Nat :=
  match l with
  | [] => none
  | (k', v) :: rest => if k' = k then some v else assocLookup rest k

/-- `this.nodeToInfo.get(node)` (graph.ts:322). -/
def lookupConstruct (s : GraphState) (c : Nat) : Option Nat :=
  assocLookup s.nodeToInfo c

/-- `this.nodes.get(id)`. -/
def findNode (nodes : List NodeData) (nid : Nat) : Option NodeData :=
  match nodes with
  | [] => none
  | n :: rest => if n.id = nid then some n else findNode rest nid

/-- `this.edges.get(id)`. -/
def findEdge (edges : List EdgeData) (eid : Nat) : Option EdgeData :=
  match edges with
  | [] => none
  | e :: rest => if e.id = eid then some e else findEdge rest eid

/-- In-place mutation of one node of the `nodes` map (`?.addOutgoing` /
`?.addIncoming`, graph.ts:359-360): a no-op when the id is absent. -/
def updateNode (nodes : List NodeData) (nid : Nat) (f : NodeData → NodeData) :
    List NodeData :=
  nodes.map fun n => if n.id = nid then f n else n

/-- `addNodeIsNew` (graph.ts:317-333): consult the construct registry; on a
hit return the existing node unchanged, otherwise allocate a node with the
next id and the requested type and register it.  Returns
(node id, `isNew`, state). -/
def addNodeIsNew (c : Nat) (t : NodeType) (s : GraphState) : Nat × Bool × GraphState :=
  match lookupConstruct s c with
  | some nid => (nid, false, s)
  | none =>
    (s.NEXT_NODE_ID, true,
      { s with
        nodes := s.nodes ++ [⟨c, s.NEXT_NODE_ID, t, [], []⟩],
        nodeToInfo := s.nodeToInfo ++ [(c, s.NEXT_NODE_ID)],
        NEXT_NODE_ID := s.NEXT_NODE_ID + 1 })

/-- `addNode` (graph.ts:335-337). -/
def addNode (c : Nat) (t : NodeType) (s : GraphState) : Nat × GraphState :=
  let r := addNodeIsNew c t s
  (r.1, r.2.2)

/-- `addEdgeIsNew` (graph.ts:346-363).  The lookup
`this.edgeInfo.get([source.id, destination.id])` is embedded as an
association-list lookup; note that the program never inserts into
`edgeInfo` (no `edgeInfo.set` exists anywhere), so in every state reachable
from `emptyGraph` the map is empty and the lookup misses.  (Even if it were
populated, a JS `Map` keys arrays by object identity, so a fresh array
literal could never hit.)  On a miss a new edge is allocated, appended to
`edges`, to the source node's `outgoing` and the destination node's
`incoming`. -/
def addEdgeIsNew (src dst : Nat) (t : EdgeType) (s : GraphState) :
    Nat × Bool × GraphState :=
  match assocLookup s.edgeInfo (src, dst) with
  | some eid => (eid, false, s)
  | none =>
    (s.NEXT_EDGE_ID, true,
      { s with
        edges := s.edges ++ [⟨s.NEXT_EDGE_ID, src, dst, t⟩],
        nodes := updateNode
          (updateNode s.nodes src fun n =>
            { n with outgoing := n.outgoing ++ [s.NEXT_EDGE_ID] })
          dst fun n => { n with incoming := n.incoming ++ [s.NEXT_EDGE_ID] },
        NEXT_EDGE_ID := s.NEXT_EDGE_ID + 1 })

/-- `addEdge` (graph.ts:365-367). -/
def addEdge (src dst : Nat) (t : EdgeType) (s : GraphState) : Nat × GraphState :=
  let r := addEdgeIsNew src dst t s
  (r.1, r.2.2)

/-- The spec's external "Source Model" collaborator (`ts-morph`), §2/§6 of the
spec: pure queries over construct identities.  `descendantCalls c` is
`c.getDescendantsOfKind(SyntaxKind.CallExpression)`: the *strict* descendants
of `c` of call kind, in document order (the node itself is never among its
own descendants).  `getArguments` returns the argument expressions themselves
(the TypeScript AST has no wrapper node around call arguments).
`findReferences` is flattened to the list of referencing identifier nodes
(`reference.getNode()` over all reference entries).  `getBody` is the
optional body (`getBodyOrThrow` throws on `none`); `getInitializer`
likewise for `getInitializerOrThrow`, `parent` for `getParentOrThrow` and
`varStatement` for `getVariableStatementOrThrow`. -/
structure SourceModel where
  kind : Nat → SyntaxKind
  isExported : Nat → Bool
  getInitializer : Nat → Option Nat
  getBody : Nat → Option Nat
  descendantCalls : Nat → List Nat
  getExpression : Nat → Nat
  getArguments : Nat → List Nat
  getDefinitionNodes : Nat → List Nat
  findReferences : Nat → List Nat
  parent : Nat → Option Nat
  varStatement : Nat → Option Nat
  stmtDeclarations : Nat → List Nat
  sourceFiles : List Nat
  fileVariableDecls : Nat → List Nat
  fileFunctions : Nat → List Nat
  fileClasses : Nat → List Nat
  classMethods : Nat → List Nat
  symbolName : Nat → Option String
  pathOf : Nat → String
  lineOf : Nat → Nat
  textOf : Nat → String

/-- The errors a build can abort with.  All but `fuelExhausted` correspond to
exceptions of the program: the `OrThrow` accessors, and `undefinedMember`
for the `TypeError` raised when a member of `undefined` is read
(`definitionInfo.outgoing` in `processCallExpression` after
`processDefinition` returned `undefined`, and the unreachable
`getBody()` miss on an arrow/function expression).  `integrityError` is the
serializer's `throw "cannot have argument edges in non-Call nodes"` and
`noSymbol` its `getSymbolOrThrow`.  `fuelExhausted` is the embedding's
recursion budget running out, not a program behavior. -/
inductive BuildError
  | fuelExhausted
  | noInitializer
  | noBody
  | noParent
  | noStatement
  | undefinedMember
  | noSymbol
  | integrityError
deriving DecidableEq, Repr

/-- The outgoing `EdgeInfo` list of a node, with edge ids resolved to edge
data (the source stores the `EdgeInfo` references directly). -/
def outgoingEdges (s : GraphState) (nid : Nat) : List EdgeData :=
  match findNode s.nodes nid with
  | none => []
  | some n => n.outgoing.filterMap (findEdge s.edges)

/-- The splice of the inner loop at graph.ts:263-265: one `Child` edge from
the call node to the destination of *every* outgoing edge of the definition
node (the loop does not inspect the edge's type).  The list is the
definition node's outgoing list at loop entry; no edge added here targets
that list, so iterating a snapshot matches the live JS array. -/
def spliceOutgoing (source : Nat) (edges : List EdgeData) (s : GraphState) :
    GraphState :=
  match edges with
  | [] => s
  | e :: rest => spliceOutgoing source rest (addEdge source e.destination .Child s).2

mutual

/-- `processCallExpression` (graph.ts:254-275): register (or fetch) the call
as a `Call` node; on a registry hit return immediately.  Otherwise, if the
callee is a bare identifier, resolve its definitions and splice each
definition node's outgoing edges into `Child` edges from this call node;
then process every argument and draw an `Argument` edge to it. -/
def processCallExpression (sm : SourceModel) (fuel : Nat) (call : Nat)
    (s : GraphState) : Except BuildError (Nat × GraphState) :=
  match fuel with
  | 0 => .error .fuelExhausted
  | f+1 =>
    match addNodeIsNew call .Call s with
    | (source, false, s1) => .ok (source, s1)
    | (source, true, s1) =>
      match
        (if sm.kind (sm.getExpression call) = SyntaxKind.Identifier then
          definitionsLoop sm f source (sm.getDefinitionNodes (sm.getExpression call)) s1
        else .ok s1) with
      | .error e => .error e
      | .ok s2 =>
        match argumentsLoop sm f source (sm.getArguments call) s2 with
        | .error e => .error e
        | .ok s3 => .ok (source, s3)
termination_by structural fuel

/-- The loop over resolved definitions in `processCallExpression`
(graph.ts:261-266).  When `processDefinition` returns `undefined` (a
non-exported variable), reading `.outgoing` from it is a `TypeError`.  The
inner loop iterates the definition node's outgoing list *as it stands when
the definition call returns* and adds a `Child` edge to each edge's
destination, regardless of that edge's own type. -/
def definitionsLoop (sm : SourceModel) (fuel : Nat) (source : Nat)
    (defs : List Nat) (s : GraphState) : Except BuildError GraphState :=
  match fuel with
  | 0 => .error .fuelExhausted
  | f+1 =>
    match defs with
    | [] => .ok s
    | d :: rest =>
      match processDefinition sm f d s with
      | .error e => .error e
      | .ok (none, _) => .error .undefinedMember
      | .ok (some dnid, s1) =>
        definitionsLoop sm f source rest (spliceOutgoing source (outgoingEdges s1 dnid) s1)
termination_by structural fuel

/-- The loop over `call.getArguments()` in `processCallExpression`
(graph.ts:269-272). -/
def argumentsLoop (sm : SourceModel) (fuel : Nat) (source : Nat)
    (args : List Nat) (s : GraphState) : Except BuildError GraphState :=
  match fuel with
  | 0 => .error .fuelExhausted
  | f+1 =>
    match args with
    | [] => .ok s
    | a :: rest =>
      match processArgument sm f a s with
      | .error e => .error e
      | .ok (argInfo, s1) =>
        argumentsLoop sm f source rest (addEdge source argInfo .Argument s1).2
termination_by structural fuel

/-- The body-scan loop shared by `processMethodDeclaration` (graph.ts:191-194),
`processFunctionDeclaration` (graph.ts:296-299), the function-like branch of
`processVariableDeclaration` (graph.ts:225-228) and `processArgument`
(graph.ts:309-312): process each nested call expression and draw a `Child`
edge to it. -/
def childCallsLoop (sm : SourceModel) (fuel : Nat) (source : Nat)
    (calls : List Nat) (s : GraphState) : Except BuildError GraphState :=
  match fuel with
  | 0 => .error .fuelExhausted
  | f+1 =>
    match calls with
    | [] => .ok s
    | call :: rest =>
      match processCallExpression sm f call s with
      | .error e => .error e
      | .ok (callInfo, s1) =>
        childCallsLoop sm f source rest (addEdge source callInfo .Child s1).2
termination_by structural fuel

/-- The reference loop of `processVariableDeclaration`'s object branch
(graph.ts:233-246): for each referencing node take its parent and
grandparent; when the grandparent is a call expression whose callee is
exactly the parent (identity comparison), process that call and draw a
`Call` edge to it. -/
def referencesLoop (sm : SourceModel) (fuel : Nat) (source : Nat)
    (refs : List Nat) (s : GraphState) : Except BuildError GraphState :=
  match fuel with
  | 0 => .error .fuelExhausted
  | f+1 =>
    match refs with
    | [] => .ok s
    | r :: rest =>
      match sm.parent r with
      | none => .error .noParent
      | some temp =>
        match sm.parent temp with
        | none => .error .noParent
        | some call =>
          if sm.kind call = SyntaxKind.CallExpression ∧ sm.getExpression call = temp then
            match processCallExpression sm f call s with
            | .error e => .error e
            | .ok (callInfo, s1) =>
              referencesLoop sm f source rest (addEdge source callInfo .Call s1).2
          else
            referencesLoop sm f source rest s
termination_by structural fuel

/-- `processDefinition` (graph.ts:277-289): dispatch on the construct kind;
variable declarations go through `processVariableDeclaration` with its
default `export_only = true` (so the result may be `undefined`), function
declarations through `processFunctionDeclaration`, and anything else becomes
a leaf `Any` node.  The `source!` non-null assertion compiles to nothing, so
an `undefined` result is returned as-is. -/
def processDefinition (sm : SourceModel) (fuel : Nat) (definition : Nat)
    (s : GraphState) : Except BuildError (Option Nat × GraphState) :=
  match fuel with
  | 0 => .error .fuelExhausted
  | f+1 =>
    if sm.kind definition = SyntaxKind.VariableDeclaration then
      processVariableDeclaration sm f definition true s
    else if sm.kind definition = SyntaxKind.FunctionDeclaration then
      match processFunctionDeclaration sm f definition s with
      | .error e => .error e
      | .ok (nid, s1) => .ok (some nid, s1)
    else
      .ok (some (addNode definition .Any s).1, (addNode definition .Any s).2)
termination_by structural fuel

/-- `processVariableDeclaration` (graph.ts:210-249).  A non-exported
declaration is skipped (returns `undefined`) before anything else — in
particular before the initializer lookup.  Otherwise the initializer is
fetched (`getInitializerOrThrow`); a function-like initializer (arrow or
function expression) yields a `Function` node whose body is scanned for
calls, anything else an `Object` node whose cross-file references are
searched for call sites. -/
def processVariableDeclaration (sm : SourceModel) (fuel : Nat) (declaration : Nat)
    (export_only : Bool) (s : GraphState) :
    Except BuildError (Option Nat × GraphState) :=
  match fuel with
  | 0 => .error .fuelExhausted
  | f+1 =>
    if export_only && !sm.isExported declaration then .ok (none, s)
    else
      match sm.getInitializer declaration with
      | none => .error .noInitializer
      | some init =>
        match addNodeIsNew declaration
            (if sm.kind init = SyntaxKind.ArrowFunction ∨
                sm.kind init = SyntaxKind.FunctionExpression
             then NodeType.Function else NodeType.Object) s with
        | (source, false, s1) => .ok (some source, s1)
        | (source, true, s1) =>
          if sm.kind init = SyntaxKind.ArrowFunction ∨
              sm.kind init = SyntaxKind.FunctionExpression then
            match sm.getBody init with
            | none => .error .undefinedMember
            | some b =>
              match childCallsLoop sm f source (sm.descendantCalls b) s1 with
              | .error e => .error e
              | .ok s2 => .ok (some source, s2)
          else
            match referencesLoop sm f source (sm.findReferences declaration) s1 with
            | .error e => .error e
            | .ok s2 => .ok (some source, s2)
termination_by structural fuel

/-- `processFunctionDeclaration` (graph.ts:291-302). -/
def processFunctionDeclaration (sm : SourceModel) (fuel : Nat) (func : Nat)
    (s : GraphState) : Except BuildError (Nat × GraphState) :=
  match fuel with
  | 0 => .error .fuelExhausted
  | f+1 =>
    match addNodeIsNew func .Function s with
    | (source, false, s1) => .ok (source, s1)
    | (source, true, s1) =>
      match sm.getBody func with
      | none => .error .noBody
      | some b =>
        match childCallsLoop sm f source (sm.descendantCalls b) s1 with
        | .error e => .error e
        | .ok s2 => .ok (source, s2)
termination_by structural fuel

/-- `processMethodDeclaration` (graph.ts:186-197): identical in shape to
`processFunctionDeclaration`. -/
def processMethodDeclaration (sm : SourceModel) (fuel : Nat) (method : Nat)
    (s : GraphState) : Except BuildError (Nat × GraphState) :=
  match fuel with
  | 0 => .error .fuelExhausted
  | f+1 =>
    match addNodeIsNew method .Function s with
    | (source, false, s1) => .ok (source, s1)
    | (source, true, s1) =>
      match sm.getBody method with
      | none => .error .noBody
      | some b =>
        match childCallsLoop sm f source (sm.descendantCalls b) s1 with
        | .error e => .error e
        | .ok s2 => .ok (source, s2)

/-- `processArgument` (graph.ts:304-315): register the argument expression
itself as an `Argument` node (there is no wrapper construct), then scan its
strict descendants for call expressions. -/
def processArgument (sm : SourceModel) (fuel : Nat) (node : Nat)
    (s : GraphState) : Except BuildError (Nat × GraphState) :=
  match fuel with
  | 0 => .error .fuelExhausted
  | f+1 =>
    match addNodeIsNew node .Argument s with
    | (source, false, s1) => .ok (source, s1)
    | (source, true, s1) =>
      match childCallsLoop sm f source (sm.descendantCalls node) s1 with
      | .error e => .error e
      | .ok s2 => .ok (source, s2)
termination_by structural fuel

end

/-- The inner loop of `processVariables` (graph.ts:159-161) over one
statement's declarations. -/
def declarationsLoop (sm : SourceModel) (fuel : Nat) (decls : List Nat)
    (s : GraphState) : Except BuildError GraphState :=
  match decls with
  | [] => .ok s
  | d :: rest =>
    match processVariableDeclaration sm fuel d true s with
    | .error e => .error e
    | .ok (_, s1) => declarationsLoop sm fuel rest s1

/-- The outer loop of `processVariables` (graph.ts:152-163): for each variable
declaration of the file, fetch its enclosing statement
(`getVariableStatementOrThrow`) and process that statement's declarations.
(The `if (!declarations) continue` guard of the source is dead code: a JS
array is never falsy.) -/
def variablesLoop (sm : SourceModel) (fuel : Nat) (vars : List Nat)
    (s : GraphState) : Except BuildError GraphState :=
  match vars with
  | [] => .ok s
  | v :: rest =>
    match sm.varStatement v with
    | none => .error .noStatement
    | some stmt =>
      match declarationsLoop sm fuel (sm.stmtDeclarations stmt) s with
      | .error e => .error e
      | .ok s1 => variablesLoop sm fuel rest s1

/-- `processVariables` (graph.ts:152-163). -/
def processVariables (sm : SourceModel) (fuel : Nat) (file : Nat)
    (s : GraphState) : Except BuildError GraphState :=
  variablesLoop sm fuel (sm.fileVariableDecls file) s

/-- The loop of `processFunctions` (graph.ts:165-170). -/
def functionsLoop (sm : SourceModel) (fuel : Nat) (funcs : List Nat)
    (s : GraphState) : Except BuildError GraphState :=
  match funcs with
  | [] => .ok s
  | fn :: rest =>
    match processFunctionDeclaration sm fuel fn s with
    | .error e => .error e
    | .ok (_, s1) => functionsLoop sm fuel rest s1

/-- `processFunctions` (graph.ts:165-170). -/
def processFunctions (sm : SourceModel) (fuel : Nat) (file : Nat)
    (s : GraphState) : Except BuildError GraphState :=
  functionsLoop sm fuel (sm.fileFunctions file) s

/-- The method loop of `processClass` (graph.ts:179-184). -/
def methodsLoop (sm : SourceModel) (fuel : Nat) (methods : List Nat)
    (s : GraphState) : Except BuildError GraphState :=
  match methods with
  | [] => .ok s
  | m :: rest =>
    match processMethodDeclaration sm fuel m s with
    | .error e => .error e
    | .ok (_, s1) => methodsLoop sm fuel rest s1

/-- `processClass` (graph.ts:179-184). -/
def processClass (sm : SourceModel) (fuel : Nat) (cls : Nat)
    (s : GraphState) : Except BuildError GraphState :=
  methodsLoop sm fuel (sm.classMethods cls) s

/-- The loop of `processClasses` (graph.ts:172-177). -/
def classesLoop (sm : SourceModel) (fuel : Nat) (classes : List Nat)
    (s : GraphState) : Except BuildError GraphState :=
  match classes with
  | [] => .ok s
  | c :: rest =>
    match processClass sm fuel c s with
    | .error e => .error e
    | .ok s1 => classesLoop sm fuel rest s1

/-- `processClasses` (graph.ts:172-177). -/
def processClasses (sm : SourceModel) (fuel : Nat) (file : Nat)
    (s : GraphState) : Except BuildError GraphState :=
  classesLoop sm fuel (sm.fileClasses file) s

/-- The per-file body of `initialize` (graph.ts:138-146): variables, then
functions, then classes. -/
def processFile (sm : SourceModel) (fuel : Nat) (file : Nat)
    (s : GraphState) : Except BuildError GraphState :=
  match processVariables sm fuel file s with
  | .error e => .error e
  | .ok s1 =>
    match processFunctions sm fuel file s1 with
    | .error e => .error e
    | .ok s2 => processClasses sm fuel file s2

/-- The file loop of `initialize`. -/
def filesLoop (sm : SourceModel) (fuel : Nat) (files : List Nat)
    (s : GraphState) : Except BuildError GraphState :=
  match files with
  | [] => .ok s
  | file :: rest =>
    match processFile sm fuel file s with
    | .error e => .error e
    | .ok s1 => filesLoop sm fuel rest s1

/-- `initialize` (graph.ts:138-146), starting from the freshly constructed
graph.  (`initialize` is a reserved word in Lean, hence the different
name.) -/
def buildGraph (sm : SourceModel) (fuel : Nat) : Except BuildError GraphState :=
  filesLoop sm fuel sm.sourceFiles emptyGraph

/-- The type-specific payload of a serialized node (graph.ts:383-404). -/
inductive NodeDataJSON
  | nameData (name : String)
  | argsData (args : List Nat)
  | emptyData
deriving DecidableEq, Repr

/-- One serialized node (graph.ts:406-422); `classTag` is the JSON field
spelled `class` in the source. -/
structure NodeJSON where
  id : Nat
  classTag : String
  location : String
  raw_source : String
  incoming : List Nat
  outgoing : List Nat
  node_data : NodeDataJSON
deriving DecidableEq, Repr

/-- One serialized edge (graph.ts:432-439). -/
structure EdgeJSON where
  id : Nat
  typeTag : String
  source_node_id : Nat
  destination_node_id : Nat
  label : String
deriving DecidableEq, Repr

/-- The `node_data` computation of `nodesToJSON` (graph.ts:383-404):
`{name}` for `Function`/`Object` nodes via `getSymbolOrThrow`, `{args}` (the
outgoing `Argument`-typed edge ids) for `Call` nodes, `{}` otherwise. -/
def nodeDataJSON (sm : SourceModel) (s : GraphState) (n : NodeData) :
    Except BuildError NodeDataJSON :=
  match n.type with
  | .Function =>
    match sm.symbolName n.construct with
    | none => .error .noSymbol
    | some nm => .ok (.nameData nm)
  | .Call =>
    .ok (.argsData (((outgoingEdges s n.id).filter
      (fun e => e.type = EdgeType.Argument)).map (fun e => e.id)))
  | .Argument => .ok .emptyData
  | .Object =>
    match sm.symbolName n.construct with
    | none => .error .noSymbol
    | some nm => .ok (.nameData nm)
  | .Any => .ok .emptyData

/-- The `outgoing` filter of `nodesToJSON` (graph.ts:413-420): drop
`Argument`-typed edges, but first throw the fatal integrity error if an
`Argument`-typed edge sits on a node that is not of type `Call`. -/
def outgoingFilter (ntype : NodeType) (edges : List EdgeData) :
    Except BuildError (List Nat) :=
  match edges with
  | [] => .ok []
  | e :: rest =>
    if e.type = EdgeType.Argument ∧ ntype ≠ NodeType.Call then
      .error .integrityError
    else
      match outgoingFilter ntype rest with
      | .error err => .error err
      | .ok ids =>
        .ok (if e.type ≠ EdgeType.Argument then e.id :: ids else ids)

/-- One node's serialization (graph.ts:383-423).  The location string is the
collaborator-relative path joined with the starting line number. -/
def nodeToJSON (sm : SourceModel) (s : GraphState) (n : NodeData) :
    Except BuildError NodeJSON :=
  match nodeDataJSON sm s n with
  | .error e => .error e
  | .ok nd =>
    match outgoingFilter n.type (outgoingEdges s n.id) with
    | .error e => .error e
    | .ok outs =>
      .ok { id := n.id,
            classTag := nodeTypeToString n.type,
            location := sm.pathOf n.construct ++ ":" ++ toString (sm.lineOf n.construct),
            raw_source := sm.textOf n.construct,
            incoming := n.incoming,
            outgoing := outs,
            node_data := nd }

/-- The node loop of `nodesToJSON` (graph.ts:382-424). -/
def nodesToJSONLoop (sm : SourceModel) (s : GraphState) :
    List NodeData → Except BuildError (List NodeJSON)
  | [] => .ok []
  | n :: rest =>
    match nodeToJSON sm s n with
    | .error e => .error e
    | .ok j =>
      match nodesToJSONLoop sm s rest with
      | .error e => .error e
      | .ok js => .ok (j :: js)

/-- `nodesToJSON` (graph.ts:380-428): serialize every node in registry
(insertion) order; the first integrity violation or missing symbol aborts. -/
def nodesToJSON (sm : SourceModel) (s : GraphState) :
    Except BuildError (List NodeJSON) :=
  nodesToJSONLoop sm s s.nodes

/-- `edgesToJSON` (graph.ts:430-445). -/
def edgesToJSON (s : GraphState) : List EdgeJSON :=
  s.edges.map fun e =>
    { id := e.id, typeTag := edgeTypeToString e.type,
      source_node_id := e.source, destination_node_id := e.destination,
      label := "" }

/-- Scenario A of the spec (§8): a class with one method
`bar(x, callback) { return callback(callback(x)); }` (the class of
`src/unnamed/part_001`).  Construct identities: 0 the file, 1 the class,
2 the method `bar`, 3 its body, 4 the outer call `callback(callback(x))`,
5 the inner call `callback(x)`, 6/7 the callee identifiers of the outer and
inner call, 9 the parameter declaration of `callback` (the definition both
callee identifiers resolve to), 10 the identifier `x` in argument position.
`descendantCalls` lists strict descendants in document order, so the body
yields `[4, 5]` and the inner call — whose only call descendants would be
calls nested inside it — yields `[]`; the single argument of the outer call
is the inner call expression itself. -/
def smA : SourceModel :=
  { kind := fun c =>
      if c = 4 ∨ c = 5 then .CallExpression
      else if c = 6 ∨ c = 7 ∨ c = 10 then .Identifier
      else .Other,
    isExported := fun _ => false,
    getInitializer := fun _ => none,
    getBody := fun c => if c = 2 then some 3 else none,
    descendantCalls := fun c => if c = 3 then [4, 5] else if c = 4 then [5] else [],
    getExpression := fun c => if c = 4 then 6 else if c = 5 then 7 else 0,
    getArguments := fun c => if c = 4 then [5] else if c = 5 then [10] else [],
    getDefinitionNodes := fun c => if c = 6 ∨ c = 7 then [9] else [],
    findReferences := fun _ => [],
    parent := fun _ => none,
    varStatement := fun _ => none,
    stmtDeclarations := fun _ => [],
    sourceFiles := [0],
    fileVariableDecls := fun _ => [],
    fileFunctions := fun _ => [],
    fileClasses := fun c => if c = 0 then [1] else [],
    classMethods := fun c => if c = 1 then [2] else [],
    symbolName := fun c => if c = 2 then some "bar" else none,
    pathOf := fun _ => "a.ts",
    lineOf := fun _ => 1,
    textOf := fun _ => "" }

/-- Scenario B of the spec (§8): `export const foo = new Foo();` followed
elsewhere by `foo.bar(5, double);`.  Construct identities: 0 the file, 1 the
declaration `foo` (exported), 2 its initializer `new Foo()`, 3 the
identifier `foo` at the call site, 4 the property access `foo.bar`, 5 the
call `foo.bar(5, double)`, 6 the literal `5`, 7 the identifier `double`,
8 the variable statement, 9 the identifier `foo` at the declaration site,
10 the expression statement around the call, 11 the declaration of the
method `bar` (present as a construct; nothing ever queries it).  Reference
search on `foo` returns the declaration-site and call-site identifiers; the
parent chain of 3 is `foo.bar` then the call, the parent chain of 9 is the
declaration then its statement. -/
def smB : SourceModel :=
  { kind := fun c =>
      if c = 1 then .VariableDeclaration
      else if c = 3 ∨ c = 7 ∨ c = 9 then .Identifier
      else if c = 4 then .PropertyAccessExpression
      else if c = 5 then .CallExpression
      else .Other,
    isExported := fun c => c = 1,
    getInitializer := fun c => if c = 1 then some 2 else none,
    getBody := fun _ => none,
    descendantCalls := fun _ => [],
    getExpression := fun c => if c = 5 then 4 else 0,
    getArguments := fun c => if c = 5 then [6, 7] else [],
    getDefinitionNodes := fun _ => [],
    findReferences := fun c => if c = 1 then [9, 3] else [],
    parent := fun c =>
      if c = 9 then some 1
      else if c = 1 then some 8
      else if c = 3 then some 4
      else if c = 4 then some 5
      else if c = 5 then some 10
      else none,
    varStatement := fun c => if c = 1 then some 8 else none,
    stmtDeclarations := fun c => if c = 8 then [1] else [],
    sourceFiles := [0],
    fileVariableDecls := fun c => if c = 0 then [1] else [],
    fileFunctions := fun _ => [],
    fileClasses := fun _ => [],
    classMethods := fun _ => [],
    symbolName := fun c => if c = 1 then some "foo" else none,
    pathOf := fun _ => "b.ts",
    lineOf := fun _ => 1,
    textOf := fun _ => "" }

/-- Scenario C of the spec (§8): a single non-exported
`const helper = function(x){ return x; };`, never referenced.  Construct
identities: 0 the file, 1 the declaration `helper`, 2 the function
expression, 3 its body, 4 the variable statement. -/
def smC : SourceModel :=
  { kind := fun c =>
      if c = 1 then .VariableDeclaration
      else if c = 2 then .FunctionExpression
      else .Other,
    isExported := fun _ => false,
    getInitializer := fun c => if c = 1 then some 2 else none,
    getBody := fun c => if c = 2 then some 3 else none,
    descendantCalls := fun _ => [],
    getExpression := fun _ => 0,
    getArguments := fun _ => [],
    getDefinitionNodes := fun _ => [],
    findReferences := fun _ => [],
    parent := fun _ => none,
    varStatement := fun c => if c = 1 then some 4 else none,
    stmtDeclarations := fun c => if c = 4 then [1] else [],
    sourceFiles := [0],
    fileVariableDecls := fun c => if c = 0 then [1] else [],
    fileFunctions := fun _ => [],
    fileClasses := fun _ => [],
    classMethods := fun _ => [],
    symbolName := fun c => if c = 1 then some "helper" else none,
    pathOf := fun _ => "c.ts",
    lineOf := fun _ => 1,
    textOf := fun _ => "" }

/-- A program exercising the splice of `processCallExpression`:
`export const foo = new Foo(); foo.m(); function h() { foo(1); }`.
Construct identities: 0 the file, 1 the declaration `foo` (exported), 2 its
initializer, 3 the identifier `foo` inside `foo.m()`, 4 the call `foo.m()`,
5 the identifier `foo` inside `foo(1)` (the bare-identifier callee), 6 the
call `foo(1)`, 7 the literal `1`, 9 the variable statement, 10 the
declaration-site identifier `foo`, 12 the property access `foo.m`, 13 the
expression statement around `foo(1)`, 14 the declaration of `h`, 15 its
body.  Reference search on `foo` finds 10, 3 and 5; only 3 sits under a
property access whose grandparent is a call with that access as callee, so
only `foo.m()` enters through the reference loop, giving `foo`'s `Object`
node a `Call`-typed outgoing edge before `foo(1)` is processed from `h`'s
body and resolves its callee to the declaration of `foo`. -/
def smD : SourceModel :=
  { kind := fun c =>
      if c = 1 then .VariableDeclaration
      else if c = 4 ∨ c = 6 then .CallExpression
      else if c = 3 ∨ c = 5 ∨ c = 10 then .Identifier
      else if c = 12 then .PropertyAccessExpression
      else if c = 14 then .FunctionDeclaration
      else .Other,
    isExported := fun c => c = 1,
    getInitializer := fun c => if c = 1 then some 2 else none,
    getBody := fun c => if c = 14 then some 15 else none,
    descendantCalls := fun c => if c = 15 then [6] else [],
    getExpression := fun c => if c = 4 then 12 else if c = 6 then 5 else 0,
    getArguments := fun c => if c = 6 then [7] else [],
    getDefinitionNodes := fun c => if c = 5 ∨ c = 3 then [1] else [],
    findReferences := fun c => if c = 1 then [10, 3, 5] else [],
    parent := fun c =>
      if c = 10 then some 1
      else if c = 1 then some 9
      else if c = 3 then some 12
      else if c = 12 then some 4
      else if c = 5 then some 6
      else if c = 6 then some 13
      else none,
    varStatement := fun c => if c = 1 then some 9 else none,
    stmtDeclarations := fun c => if c = 9 then [1] else [],
    sourceFiles := [0],
    fileVariableDecls := fun c => if c = 0 then [1] else [],
    fileFunctions := fun c => if c = 0 then [14] else [],
    fileClasses := fun _ => [],
    classMethods := fun _ => [],
    symbolName := fun c => if c = 1 then some "foo" else if c = 14 then some "h" else none,
    pathOf := fun _ => "d.ts",
    lineOf := fun _ => 1,
    textOf := fun _ => "" }

/-- A program whose build crashes: a non-exported
`const helper = function(x){ return x; };` together with
`function main() { helper(1); }`, so the bare-identifier callee `helper`
resolves to the non-exported declaration.  Construct identities: 0 the
file, 1 the declaration `helper`, 2 its initializer, 4 the variable
statement, 5 the declaration of `main`, 6 its body, 7 the call `helper(1)`,
8 the identifier `helper` at the call site, 9 the literal `1`. -/
def smE : SourceModel :=
  { kind := fun c =>
      if c = 1 then .VariableDeclaration
      else if c = 2 then .FunctionExpression
      else if c = 5 then .FunctionDeclaration
      else if c = 7 then .CallExpression
      else if c = 8 then .Identifier
      else .Other,
    isExported := fun _ => false,
    getInitializer := fun c => if c = 1 then some 2 else none,
    getBody := fun c => if c = 5 then some 6 else none,
    descendantCalls := fun c => if c = 6 then [7] else [],
    getExpression := fun c => if c = 7 then 8 else 0,
    getArguments := fun c => if c = 7 then [9] else [],
    getDefinitionNodes := fun c => if c = 8 then [1] else [],
    findReferences := fun _ => [],
    parent := fun _ => none,
    varStatement := fun c => if c = 1 then some 4 else none,
    stmtDeclarations := fun c => if c = 4 then [1] else [],
    sourceFiles := [0],
    fileVariableDecls := fun c => if c = 0 then [1] else [],
    fileFunctions := fun c => if c = 0 then [5] else [],
    fileClasses := fun _ => [],
    classMethods := fun _ => [],
    symbolName := fun c => if c = 1 then some "helper" else if c = 5 then some "main" else none,
    pathOf := fun _ => "e.ts",
    lineOf := fun _ => 1,
    textOf := fun _ => "" }

/-- A mutually recursive program: `function f() { g(); }` and
`function g() { f(); }`.  Construct identities: 0 the file, 1 the
declaration of `f`, 2 the declaration of `g`, 3 the call `g()`, 4 the call
`f()`, 5/6 the callee identifiers of those calls, 7/8 the bodies of `f` and
`g`. -/
def smRec : SourceModel :=
  { kind := fun c =>
      if c = 1 ∨ c = 2 then .FunctionDeclaration
      else if c = 3 ∨ c = 4 then .CallExpression
      else if c = 5 ∨ c = 6 then .Identifier
      else .Other,
    isExported := fun _ => true,
    getInitializer := fun _ => none,
    getBody := fun c => if c = 1 then some 7 else if c = 2 then some 8 else none,
    descendantCalls := fun c => if c = 7 then [3] else if c = 8 then [4] else [],
    getExpression := fun c => if c = 3 then 5 else if c = 4 then 6 else 0,
    getArguments := fun _ => [],
    getDefinitionNodes := fun c => if c = 5 then [2] else if c = 6 then [1] else [],
    findReferences := fun _ => [],
    parent := fun _ => none,
    varStatement := fun _ => none,
    stmtDeclarations := fun _ => [],
    sourceFiles := [0],
    fileVariableDecls := fun _ => [],
    fileFunctions := fun c => if c = 0 then [1, 2] else [],
    fileClasses := fun _ => [],
    classMethods := fun _ => [],
    symbolName := fun c => if c = 1 then some "f" else if c = 2 then some "g" else none,
    pathOf := fun _ => "r.ts",
    lineOf := fun _ => 1,
    textOf := fun _ => "" }

/-- The type recorded for a node id. -/
def nodeTypeAt (s : GraphState) (nid : Nat) : Option NodeType :=
  (findNode s.nodes nid).map (fun n => n.type)

/-- State growth along the builder: the construct registry and the recorded
node types only grow, and the (never-written) `edgeInfo` map is untouched. -/
structure Extends (s s' : GraphState) : Prop where
  registry : ∀ c nid, lookupConstruct s c = some nid → lookupConstruct s' c = some nid
  types : ∀ nid t, nodeTypeAt s nid = some t → nodeTypeAt s' nid = some t
  edgeInfoEq : s'.edgeInfo = s.edgeInfo

/-- Statement bundle: a successful `processCallExpression` only extends the
state. -/
def ExtCE (sm : SourceModel) (fuel : Nat) : Prop :=
  ∀ c s r s', processCallExpression sm fuel c s = .ok (r, s') → Extends s s'

/-- Statement bundle for `definitionsLoop`. -/
def ExtDefsLoop (sm : SourceModel) (fuel : Nat) : Prop :=
  ∀ src l s s', definitionsLoop sm fuel src l s = .ok s' → Extends s s'

/-- Statement bundle for `argumentsLoop`. -/
def ExtArgsLoop (sm : SourceModel) (fuel : Nat) : Prop :=
  ∀ src l s s', argumentsLoop sm fuel src l s = .ok s' → Extends s s'

/-- Statement bundle for `childCallsLoop`. -/
def ExtChildLoop (sm : SourceModel) (fuel : Nat) : Prop :=
  ∀ src l s s', childCallsLoop sm fuel src l s = .ok s' → Extends s s'

/-- Statement bundle for `referencesLoop`. -/
def ExtRefsLoop (sm : SourceModel) (fuel : Nat) : Prop :=
  ∀ src l s s', referencesLoop sm fuel src l s = .ok s' → Extends s s'

/-- Statement bundle for `processDefinition`. -/
def ExtPD (sm : SourceModel) (fuel : Nat) : Prop :=
  ∀ d s r s', processDefinition sm fuel d s = .ok (r, s') → Extends s s'

/-- Statement bundle for `processVariableDeclaration`. -/
def ExtPVD (sm : SourceModel) (fuel : Nat) : Prop :=
  ∀ d eo s r s', processVariableDeclaration sm fuel d eo s = .ok (r, s') → Extends s s'

/-- Statement bundle for `processFunctionDeclaration`. -/
def ExtPFD (sm : SourceModel) (fuel : Nat) : Prop :=
  ∀ d s r s', processFunctionDeclaration sm fuel d s = .ok (r, s') → Extends s s'

/-- Statement bundle for `processArgument`. -/
def ExtPA (sm : SourceModel) (fuel : Nat) : Prop :=
  ∀ a s r s', processArgument sm fuel a s = .ok (r, s') → Extends s s'

/-- The graph `buildGraph smA` produces: one `Function` node for `bar`, one
`Call` node for the outer call, one `Any` node for the `callback` parameter,
and one `Argument` node that *is* the inner call expression (construct 5). -/
def builtA : GraphState :=
  { nodes := [⟨2, 0, .Function, [], [1, 2]⟩, ⟨4, 1, .Call, [1], [0]⟩,
              ⟨9, 2, .Any, [], []⟩, ⟨5, 3, .Argument, [0, 2], []⟩],
    nodeToInfo := [(2, 0), (4, 1), (9, 2), (5, 3)],
    edges := [⟨0, 1, 3, .Argument⟩, ⟨1, 0, 1, .Child⟩, ⟨2, 0, 3, .Child⟩],
    edgeInfo := [], NEXT_NODE_ID := 4, NEXT_EDGE_ID := 3 }

/-- The graph `buildGraph smB` produces. -/
def builtB : GraphState :=
  { nodes := [⟨1, 0, .Object, [], [2]⟩, ⟨5, 1, .Call, [2], [0, 1]⟩,
              ⟨6, 2, .Argument, [0], []⟩, ⟨7, 3, .Argument, [1], []⟩],
    nodeToInfo := [(1, 0), (5, 1), (6, 2), (7, 3)],
    edges := [⟨0, 1, 2, .Argument⟩, ⟨1, 1, 3, .Argument⟩, ⟨2, 0, 1, .Call⟩],
    edgeInfo := [], NEXT_NODE_ID := 4, NEXT_EDGE_ID := 3 }

/-- The graph `buildGraph smD` produces: edge 1 is a `Child` edge from the
call `foo(1)` (node 3) to the call `foo.m()` (node 1), spliced from `foo`'s
single outgoing edge — edge 0, which is `Call`-typed. -/
def builtD : GraphState :=
  { nodes := [⟨1, 0, .Object, [], [0]⟩, ⟨4, 1, .Call, [0, 1], []⟩,
              ⟨14, 2, .Function, [], [3]⟩, ⟨6, 3, .Call, [3], [1, 2]⟩,
              ⟨7, 4, .Argument, [2], []⟩],
    nodeToInfo := [(1, 0), (4, 1), (14, 2), (6, 3), (7, 4)],
    edges := [⟨0, 0, 1, .Call⟩, ⟨1, 3, 1, .Child⟩, ⟨2, 3, 4, .Argument⟩,
              ⟨3, 2, 3, .Child⟩],
    edgeInfo := [], NEXT_NODE_ID := 5, NEXT_EDGE_ID := 4 }

/-- A two-node graph with no edges, used to exercise `addEdgeIsNew` on a
repeated (source, destination) pair. -/
def twoNodes : GraphState :=
  { nodes := [⟨100, 0, .Function, [], []⟩, ⟨101, 1, .Call, [], []⟩],
    nodeToInfo := [(100, 0), (101, 1)],
    edges := [], edgeInfo := [], NEXT_NODE_ID := 2, NEXT_EDGE_ID := 0 }

/-- The edges appended by one run of `spliceOutgoing`: a `Child` edge to the
destination of every edge of the input list, with consecutive fresh ids. -/
def spliceAppend (src : Nat) (eid : Nat) : List EdgeData → List EdgeData
  | [] => []
  | e :: rest => ⟨eid, src, e.destination, .Child⟩ :: spliceAppend src (eid + 1) rest

/-- Claim C10 — resolving a bare-identifier callee to a non-exported
variable declaration crashes the build: `processDefinition` dispatches a
variable-declaration definition to `processVariableDeclaration` with its
default `export_only = true`, which returns `undefined` for the
non-exported `helper`; back in `processCallExpression` the loop then reads
`.outgoing` from that `undefined` value, a fatal `TypeError`
(`undefinedMember`), so the whole build of `smE` aborts with that error
instead of skipping the definition or producing a node. -/
theorem nonexported_resolution_crashes :
    buildGraph smE 30 = .error .undefinedMember ∧
    (∀ fuel : Nat, ∀ s : GraphState, processDefinition smE (fuel + 1) 1 s =
      processVariableDeclaration smE fuel 1 true s) ∧
    (∀ fuel : Nat, ∀ s : GraphState,
      processVariableDeclaration smE (fuel + 1) 1 true s = .ok (none, s)) := by
  refine ⟨by decide, fun fuel s => ?_, fun fuel s => ?_⟩
  · rw [processDefinition, if_pos (show smE.kind 1 = SyntaxKind.VariableDeclaration by decide)]
  · rw [processVariableDeclaration,
      if_pos (show (true && !smE.isExported 1) = true by decide)]

/-- Structural well-formedness maintained by the builder: looking a node up
by its own id finds it (ids are unique), every edge id in an `outgoing`
list is below the edge counter and resolves (if at all) to an edge whose
source is that node, and the id counters bound all allocated ids. -/
structure WFState (s : GraphState) : Prop where
  nodeSelf : ∀ n ∈ s.nodes, findNode s.nodes n.id = some n
  outBound : ∀ n ∈ s.nodes, ∀ eid ∈ n.outgoing, eid < s.NEXT_EDGE_ID
  outSrc : ∀ n ∈ s.nodes, ∀ eid ∈ n.outgoing, ∀ e,
    findEdge s.edges eid = some e → e.source = n.id
  nodeBound : ∀ n ∈ s.nodes, n.id < s.NEXT_NODE_ID
  edgeBound : ∀ e ∈ s.edges, e.id < s.NEXT_EDGE_ID

/-- The graph invariant of claim C4: every `Argument`-typed edge originates
at a `Call`-typed node. -/
def ArgEdgeInv (s : GraphState) : Prop :=
  ∀ e ∈ s.edges, e.type = EdgeType.Argument →
    nodeTypeAt s e.source = some NodeType.Call

/-- Invariant-preservation bundle for `processCallExpression`. -/
def InvCE (sm : SourceModel) (fuel : Nat) : Prop :=
  ∀ c s r s', WFState s → ArgEdgeInv s →
    processCallExpression sm fuel c s = .ok (r, s') → WFState s' ∧ ArgEdgeInv s'

/-- Invariant-preservation bundle for `definitionsLoop`. -/
def InvDefsLoop (sm : SourceModel) (fuel : Nat) : Prop :=
  ∀ src l s s', WFState s → ArgEdgeInv s →
    definitionsLoop sm fuel src l s = .ok s' → WFState s' ∧ ArgEdgeInv s'

/-- Invariant-preservation bundle for `argumentsLoop`: the source node of the
`Argument` edges must be recorded as a `Call` node. -/
def InvArgsLoop (sm : SourceModel) (fuel : Nat) : Prop :=
  ∀ src l s s', WFState s → ArgEdgeInv s →
    nodeTypeAt s src = some NodeType.Call →
    argumentsLoop sm fuel src l s = .ok s' → WFState s' ∧ ArgEdgeInv s'

/-- Invariant-preservation bundle for `childCallsLoop`. -/
def InvChildLoop (sm : SourceModel) (fuel : Nat) : Prop :=
  ∀ src l s s', WFState s → ArgEdgeInv s →
    childCallsLoop sm fuel src l s = .ok s' → WFState s' ∧ ArgEdgeInv s'

/-- Invariant-preservation bundle for `referencesLoop`. -/
def InvRefsLoop (sm : SourceModel) (fuel : Nat) : Prop :=
  ∀ src l s s', WFState s → ArgEdgeInv s →
    referencesLoop sm fuel src l s = .ok s' → WFState s' ∧ ArgEdgeInv s'

/-- Invariant-preservation bundle for `processDefinition`. -/
def InvPD (sm : SourceModel) (fuel : Nat) : Prop :=
  ∀ d s r s', WFState s → ArgEdgeInv s →
    processDefinition sm fuel d s = .ok (r, s') → WFState s' ∧ ArgEdgeInv s'

/-- Invariant-preservation bundle for `processVariableDeclaration`. -/
def InvPVD (sm : SourceModel) (fuel : Nat) : Prop :=
  ∀ d eo s r s', WFState s → ArgEdgeInv s →
    processVariableDeclaration sm fuel d eo s = .ok (r, s') →
    WFState s' ∧ ArgEdgeInv s'

/-- Invariant-preservation bundle for `processFunctionDeclaration`. -/
def InvPFD (sm : SourceModel) (fuel : Nat) : Prop :=
  ∀ d s r s', WFState s → ArgEdgeInv s →
    processFunctionDeclaration sm fuel d s = .ok (r, s') →
    WFState s' ∧ ArgEdgeInv s'

/-- Invariant-preservation bundle for `processArgument`. -/
def InvPA (sm : SourceModel) (fuel : Nat) : Prop :=
  ∀ a s r s', WFState s → ArgEdgeInv s →
    processArgument sm fuel a s = .ok (r, s') → WFState s' ∧ ArgEdgeInv s'

/-- Bounded form of an optional obligation: the property holds of the value
if the option carries one.  Used to state decidable closure conditions. -/
def OptAll {α : Type} (o : Option α) (p : α → Prop) : Prop :=
  ∀ x, o = some x → p x

instance {α : Type} (o : Option α) (p : α → Prop) [DecidablePred p] :
    Decidable (OptAll o p) :=
  match o with
  | none => isTrue (fun x h => nomatch h)
  | some a =>
    match inferInstanceAs (Decidable (p a)) with
    | isTrue h => isTrue (fun x hx => by cases hx; exact h)
    | isFalse h => isFalse (fun hall => h (hall a rfl))

/-- A finite universe `U` of constructs closed under every query the builder
follows: whatever the traversal can reach from a construct of `U` (or from
the per-file enumerations) is again in `U`.  For an actual project this is
simply the finite set of AST nodes. -/
structure Closed (sm : SourceModel) (U : List Nat) : Prop where
  fileVars : ∀ file ∈ sm.sourceFiles, ∀ v ∈ sm.fileVariableDecls file,
    OptAll (sm.varStatement v) fun stmt => ∀ d ∈ sm.stmtDeclarations stmt, d ∈ U
  fileFuns : ∀ file ∈ sm.sourceFiles, ∀ fn ∈ sm.fileFunctions file, fn ∈ U
  fileMethods : ∀ file ∈ sm.sourceFiles, ∀ cl ∈ sm.fileClasses file,
    ∀ m ∈ sm.classMethods cl, m ∈ U
  defNodes : ∀ c ∈ U, ∀ d ∈ sm.getDefinitionNodes (sm.getExpression c), d ∈ U
  args : ∀ c ∈ U, ∀ a ∈ sm.getArguments c, a ∈ U
  descCalls : ∀ c ∈ U, ∀ k ∈ sm.descendantCalls c, k ∈ U
  bodyCalls : ∀ c ∈ U, OptAll (sm.getBody c) fun b =>
    ∀ k ∈ sm.descendantCalls b, k ∈ U
  initBodyCalls : ∀ c ∈ U, OptAll (sm.getInitializer c) fun i =>
    OptAll (sm.getBody i) fun b => ∀ k ∈ sm.descendantCalls b, k ∈ U
  refCalls : ∀ c ∈ U, ∀ r ∈ sm.findReferences c,
    OptAll (sm.parent r) fun t => OptAll (sm.parent t) fun cl =>
      sm.kind cl = SyntaxKind.CallExpression → cl ∈ U

/-- Budget weight of one construct: one step for registering it plus one
step per element of every list the builder iterates for it. -/
def unregWeight (sm : SourceModel) (c : Nat) : Nat :=
  1 + (sm.getDefinitionNodes (sm.getExpression c)).length
    + (sm.getArguments c).length
    + (sm.descendantCalls c).length
    + (match sm.getBody c with
       | some b => (sm.descendantCalls b).length
       | none => 0)
    + (match sm.getInitializer c with
       | some i =>
         match sm.getBody i with
         | some b => (sm.descendantCalls b).length
         | none => 0
       | none => 0)
    + (sm.findReferences c).length

/-- Total remaining budget weight: the weights of the universe's constructs
not yet in the node registry.  Every registration strictly decreases it. -/
def potential (sm : SourceModel) (U : List Nat) (s : GraphState) : Nat :=
  match U with
  | [] => 0
  | c :: rest =>
    (if lookupConstruct s c = none then unregWeight sm c else 0) +
      potential sm rest s

/-- Termination bundle for `processCallExpression`: enough budget means the
budget is never exhausted (structural errors may still occur). -/
def TermCE (sm : SourceModel) (U : List Nat) (fuel : Nat) : Prop :=
  ∀ c s, c ∈ U → 2 * potential sm U s + 2 ≤ fuel →
    processCallExpression sm fuel c s ≠ .error .fuelExhausted

/-- Termination bundle for `processDefinition`. -/
def TermPD (sm : SourceModel) (U : List Nat) (fuel : Nat) : Prop :=
  ∀ d s, d ∈ U → 2 * potential sm U s + 3 ≤ fuel →
    processDefinition sm fuel d s ≠ .error .fuelExhausted

/-- Termination bundle for `processVariableDeclaration`. -/
def TermPVD (sm : SourceModel) (U : List Nat) (fuel : Nat) : Prop :=
  ∀ d eo s, d ∈ U → 2 * potential sm U s + 2 ≤ fuel →
    processVariableDeclaration sm fuel d eo s ≠ .error .fuelExhausted

/-- Termination bundle for `processFunctionDeclaration`. -/
def TermPFD (sm : SourceModel) (U : List Nat) (fuel : Nat) : Prop :=
  ∀ d s, d ∈ U → 2 * potential sm U s + 2 ≤ fuel →
    processFunctionDeclaration sm fuel d s ≠ .error .fuelExhausted

/-- Termination bundle for `processArgument`. -/
def TermPA (sm : SourceModel) (U : List Nat) (fuel : Nat) : Prop :=
  ∀ a s, a ∈ U → 2 * potential sm U s + 2 ≤ fuel →
    processArgument sm fuel a s ≠ .error .fuelExhausted

/-- Termination bundle for `definitionsLoop`. -/
def TermDefsLoop (sm : SourceModel) (U : List Nat) (fuel : Nat) : Prop :=
  ∀ src l s, (∀ d ∈ l, d ∈ U) →
    2 * potential sm U s + l.length + 3 ≤ fuel →
    definitionsLoop sm fuel src l s ≠ .error .fuelExhausted

/-- Termination bundle for `argumentsLoop`. -/
def TermArgsLoop (sm : SourceModel) (U : List Nat) (fuel : Nat) : Prop :=
  ∀ src l s, (∀ a ∈ l, a ∈ U) →
    2 * potential sm U s + l.length + 3 ≤ fuel →
    argumentsLoop sm fuel src l s ≠ .error .fuelExhausted

/-- Termination bundle for `childCallsLoop`. -/
def TermChildLoop (sm : SourceModel) (U : List Nat) (fuel : Nat) : Prop :=
  ∀ src l s, (∀ k ∈ l, k ∈ U) →
    2 * potential sm U s + l.length + 3 ≤ fuel →
    childCallsLoop sm fuel src l s ≠ .error .fuelExhausted

/-- Termination bundle for `referencesLoop`. -/
def TermRefsLoop (sm : SourceModel) (U : List Nat) (fuel : Nat) : Prop :=
  ∀ src l s, (∀ r ∈ l, OptAll (sm.parent r) fun t => OptAll (sm.parent t)
      fun cl => sm.kind cl = SyntaxKind.CallExpression → cl ∈ U) →
    2 * potential sm U s + l.length + 3 ≤ fuel →
    referencesLoop sm fuel src l s ≠ .error .fuelExhausted

theorem assocLookup_append_some {κ : Type} [DecidableEq κ]
    {l l' : List (κ × Nat)} {k : κ} {v : Nat}
    (h : assocLookup l k = some v) : assocLookup (l ++ l') k = some v := by
  induction l with
  | nil => simp [assocLookup] at h
  | cons p rest ih =>
    rw [List.cons_append]
    rw [assocLookup] at h ⊢
    by_cases hk : p.1 = k
    · simpa [hk] using h
    · simp only [hk, if_false] at h ⊢
      exact ih h

theorem assocLookup_append_none {κ : Type} [DecidableEq κ]
    {l : List (κ × Nat)} {k : κ} (l' : List (κ × Nat))
    (h : assocLookup l k = none) : assocLookup (l ++ l') k = assocLookup l' k := by
  induction l with
  | nil => simp [assocLookup]
  | cons p rest ih =>
    rw [assocLookup] at h
    rw [List.cons_append, assocLookup]
    by_cases hk : p.1 = k
    · simp [hk] at h
    · simp only [hk, if_false] at h ⊢
      exact ih h

theorem findNode_mem {nodes : List NodeData} {nid : Nat} {n : NodeData}
    (h : findNode nodes nid = some n) : n ∈ nodes ∧ n.id = nid := by
  induction nodes with
  | nil => simp [findNode] at h
  | cons m rest ih =>
    rw [findNode] at h
    by_cases hm : m.id = nid
    · simp only [hm, if_true, Option.some.injEq] at h
      exact ⟨by simp [← h], by rw [← h]; exact hm⟩
    · simp only [hm, if_false] at h
      rcases ih h with ⟨h1, h2⟩
      exact ⟨List.mem_cons_of_mem _ h1, h2⟩

theorem findNode_append_some {nodes : List NodeData} (extra : List NodeData)
    {nid : Nat} {n : NodeData} (h : findNode nodes nid = some n) :
    findNode (nodes ++ extra) nid = some n := by
  induction nodes with
  | nil => simp [findNode] at h
  | cons m rest ih =>
    rw [findNode] at h
    rw [List.cons_append, findNode]
    by_cases hm : m.id = nid
    · simpa [hm] using h
    · simp only [hm, if_false] at h ⊢
      exact ih h

theorem findEdge_mem {edges : List EdgeData} {eid : Nat} {e : EdgeData}
    (h : findEdge edges eid = some e) : e ∈ edges ∧ e.id = eid := by
  induction edges with
  | nil => simp [findEdge] at h
  | cons d rest ih =>
    rw [findEdge] at h
    by_cases hd : d.id = eid
    · simp only [hd, if_true, Option.some.injEq] at h
      exact ⟨by simp [← h], by rw [← h]; exact hd⟩
    · simp only [hd, if_false] at h
      rcases ih h with ⟨h1, h2⟩
      exact ⟨List.mem_cons_of_mem _ h1, h2⟩

theorem findEdge_append_some {edges : List EdgeData} (extra : List EdgeData)
    {eid : Nat} {e : EdgeData} (h : findEdge edges eid = some e) :
    findEdge (edges ++ extra) eid = some e := by
  induction edges with
  | nil => simp [findEdge] at h
  | cons d rest ih =>
    rw [findEdge] at h
    rw [List.cons_append, findEdge]
    by_cases hd : d.id = eid
    · simpa [hd] using h
    · simp only [hd, if_false] at h ⊢
      exact ih h

theorem findNode_updateNode {nodes : List NodeData} (nid : Nat)
    (f : NodeData → NodeData) (hid : ∀ n, (f n).id = n.id) (x : Nat) :
    findNode (updateNode nodes nid f) x =
      (findNode nodes x).map (fun n => if n.id = nid then f n else n) := by
  have hgid : ∀ n : NodeData, (if n.id = nid then f n else n).id = n.id := by
    intro n
    by_cases h2 : n.id = nid <;> simp [h2, hid]
  induction nodes with
  | nil => simp [findNode, updateNode]
  | cons m rest ih =>
    rw [updateNode, List.map_cons, findNode, findNode, hgid m]
    by_cases hm : m.id = x
    · simp [hm]
    · simp only [hm, if_false, ← ih, updateNode]

theorem addNodeIsNew_hit {s : GraphState} {c : Nat} {nid : Nat} (t : NodeType)
    (h : lookupConstruct s c = some nid) :
    addNodeIsNew c t s = (nid, false, s) := by
  rw [addNodeIsNew, h]

theorem addNodeIsNew_false {s s1 : GraphState} {c nid : Nat} {t : NodeType}
    (h : addNodeIsNew c t s = (nid, false, s1)) :
    s1 = s ∧ lookupConstruct s c = some nid := by
  rw [addNodeIsNew] at h
  cases hl : lookupConstruct s c with
  | none => rw [hl] at h; simp at h
  | some v =>
    rw [hl] at h
    simp only [Prod.mk.injEq] at h
    exact ⟨h.2.2.symm, congrArg some h.1⟩

theorem addNodeIsNew_true {s s1 : GraphState} {c nid : Nat} {t : NodeType}
    (h : addNodeIsNew c t s = (nid, true, s1)) :
    lookupConstruct s c = none ∧ nid = s.NEXT_NODE_ID ∧
    s1 = { s with
      nodes := s.nodes ++ [⟨c, s.NEXT_NODE_ID, t, [], []⟩],
      nodeToInfo := s.nodeToInfo ++ [(c, s.NEXT_NODE_ID)],
      NEXT_NODE_ID := s.NEXT_NODE_ID + 1 } := by
  rw [addNodeIsNew] at h
  cases hl : lookupConstruct s c with
  | none =>
    rw [hl] at h
    simp only [Prod.mk.injEq] at h
    exact ⟨rfl, h.1.symm, h.2.2.symm⟩
  | some v => rw [hl] at h; simp at h

theorem Extends.rfl {s : GraphState} : Extends s s :=
  ⟨fun _ _ h => h, fun _ _ h => h, by rfl⟩

theorem Extends.trans {s1 s2 s3 : GraphState}
    (h1 : Extends s1 s2) (h2 : Extends s2 s3) : Extends s1 s3 :=
  ⟨fun c nid h => h2.registry c nid (h1.registry c nid h),
   fun nid t h => h2.types nid t (h1.types nid t h),
   by rw [h2.edgeInfoEq, h1.edgeInfoEq]⟩

theorem extends_addNodeIsNew {s s1 : GraphState} {c nid : Nat} {t : NodeType}
    {b : Bool} (h : addNodeIsNew c t s = (nid, b, s1)) : Extends s s1 := by
  cases b with
  | false => rw [(addNodeIsNew_false h).1]; exact Extends.rfl
  | true =>
    rw [(addNodeIsNew_true h).2.2]
    refine ⟨fun c' nid' hl => ?_, fun nid' t' ht => ?_, by rfl⟩
    · exact assocLookup_append_some hl
    · rw [nodeTypeAt] at ht ⊢
      cases hf : findNode s.nodes nid' with
      | none => rw [hf] at ht; simp at ht
      | some n =>
        rw [hf] at ht
        simp only [findNode_append_some _ hf]
        exact ht

theorem nodeTypeAt_updateNode {s : GraphState} (nid : Nat)
    {f : NodeData → NodeData} (hid : ∀ n, (f n).id = n.id)
    (ht : ∀ n, (f n).type = n.type) (x : Nat) :
    nodeTypeAt { s with nodes := updateNode s.nodes nid f } x = nodeTypeAt s x := by
  rw [nodeTypeAt, nodeTypeAt]
  show ((findNode (updateNode s.nodes nid f) x).map fun n => n.type) = _
  rw [findNode_updateNode nid f hid x]
  cases findNode s.nodes x with
  | none => rfl
  | some n =>
    by_cases h2 : n.id = nid <;> simp [h2, ht]

theorem addEdgeIsNew_cases {s : GraphState} (src dst : Nat) (t : EdgeType) :
    (∃ eid, assocLookup s.edgeInfo (src, dst) = some eid ∧
      addEdgeIsNew src dst t s = (eid, false, s)) ∨
    (assocLookup s.edgeInfo (src, dst) = none ∧
      addEdgeIsNew src dst t s = (s.NEXT_EDGE_ID, true,
        { s with
          edges := s.edges ++ [⟨s.NEXT_EDGE_ID, src, dst, t⟩],
          nodes := updateNode
            (updateNode s.nodes src fun n =>
              { n with outgoing := n.outgoing ++ [s.NEXT_EDGE_ID] })
            dst fun n => { n with incoming := n.incoming ++ [s.NEXT_EDGE_ID] },
          NEXT_EDGE_ID := s.NEXT_EDGE_ID + 1 })) := by
  cases hl : assocLookup s.edgeInfo (src, dst) with
  | some eid => exact Or.inl ⟨eid, rfl, by rw [addEdgeIsNew, hl]⟩
  | none => exact Or.inr ⟨rfl, by rw [addEdgeIsNew, hl]⟩

theorem extends_addEdge {s : GraphState} (src dst : Nat) (t : EdgeType) :
    Extends s (addEdge src dst t s).2 := by
  rcases addEdgeIsNew_cases (s := s) src dst t with ⟨eid, _, he⟩ | ⟨_, he⟩
  · rw [addEdge, he]; exact Extends.rfl
  · rw [addEdge, he]
    refine ⟨fun c nid h => h, fun nid t' ht => ?_, by rfl⟩
    have h1 := nodeTypeAt_updateNode (s :=
      { s with
        edges := s.edges ++ [⟨s.NEXT_EDGE_ID, src, dst, t⟩],
        nodes := updateNode s.nodes src fun n =>
          { n with outgoing := n.outgoing ++ [s.NEXT_EDGE_ID] },
        NEXT_EDGE_ID := s.NEXT_EDGE_ID + 1 })
      dst
      (f := fun n => { n with incoming := n.incoming ++ [s.NEXT_EDGE_ID] })
      (fun n => rfl) (fun n => rfl) nid
    have h2 := nodeTypeAt_updateNode (s :=
      { s with
        edges := s.edges ++ [⟨s.NEXT_EDGE_ID, src, dst, t⟩],
        NEXT_EDGE_ID := s.NEXT_EDGE_ID + 1 })
      src
      (f := fun n => { n with outgoing := n.outgoing ++ [s.NEXT_EDGE_ID] })
      (fun n => rfl) (fun n => rfl) nid
    have h3 : nodeTypeAt
        { s with
          edges := s.edges ++ [⟨s.NEXT_EDGE_ID, src, dst, t⟩],
          NEXT_EDGE_ID := s.NEXT_EDGE_ID + 1 } nid = nodeTypeAt s nid := by
      rw [nodeTypeAt, nodeTypeAt]
    rw [show (nodeTypeAt
      { s with
        edges := s.edges ++ [⟨s.NEXT_EDGE_ID, src, dst, t⟩],
        nodes := updateNode
          (updateNode s.nodes src fun n =>
            { n with outgoing := n.outgoing ++ [s.NEXT_EDGE_ID] })
          dst fun n => { n with incoming := n.incoming ++ [s.NEXT_EDGE_ID] },
        NEXT_EDGE_ID := s.NEXT_EDGE_ID + 1 } nid) =
      nodeTypeAt s nid from h1.trans (h2.trans h3)]
    exact ht

theorem extends_spliceOutgoing (source : Nat) (es : List EdgeData) (s : GraphState) :
    Extends s (spliceOutgoing source es s) := by
  induction es generalizing s with
  | nil => exact Extends.rfl
  | cons e rest ih =>
    rw [spliceOutgoing]
    exact (extends_addEdge source e.destination .Child).trans (ih _)

theorem extends_mutual (sm : SourceModel) : ∀ fuel,
    ExtCE sm fuel ∧ ExtDefsLoop sm fuel ∧ ExtArgsLoop sm fuel ∧
    ExtChildLoop sm fuel ∧ ExtRefsLoop sm fuel ∧ ExtPD sm fuel ∧
    ExtPVD sm fuel ∧ ExtPFD sm fuel ∧ ExtPA sm fuel := by
  intro fuel
  induction fuel with
  | zero =>
    refine ⟨?_, ?_, ?_, ?_, ?_, ?_, ?_, ?_, ?_⟩
    · intro c s r s' h; rw [processCallExpression] at h; exact absurd h (by simp)
    · intro src l s s' h; rw [definitionsLoop] at h; exact absurd h (by simp)
    · intro src l s s' h; rw [argumentsLoop] at h; exact absurd h (by simp)
    · intro src l s s' h; rw [childCallsLoop] at h; exact absurd h (by simp)
    · intro src l s s' h; rw [referencesLoop] at h; exact absurd h (by simp)
    · intro d s r s' h; rw [processDefinition] at h; exact absurd h (by simp)
    · intro d eo s r s' h; rw [processVariableDeclaration] at h; exact absurd h (by simp)
    · intro d s r s' h; rw [processFunctionDeclaration] at h; exact absurd h (by simp)
    · intro a s r s' h; rw [processArgument] at h; exact absurd h (by simp)
  | succ f ih =>
    obtain ⟨ihCE, ihDefs, ihArgs, ihChild, ihRefs, ihPD, ihPVD, ihPFD, ihPA⟩ := ih
    refine ⟨?_, ?_, ?_, ?_, ?_, ?_, ?_, ?_, ?_⟩
    · -- processCallExpression
      intro c s r s' h
      rw [processCallExpression] at h
      rcases hA : addNodeIsNew c NodeType.Call s with ⟨source, b, s1⟩
      rw [hA] at h
      cases b with
      | false =>
        simp only [Except.ok.injEq, Prod.mk.injEq] at h
        rw [← h.2]
        exact extends_addNodeIsNew hA
      | true =>
        simp only [] at h
        rcases h2 : (if sm.kind (sm.getExpression c) = SyntaxKind.Identifier then
              definitionsLoop sm f source (sm.getDefinitionNodes (sm.getExpression c)) s1
            else .ok s1) with e | s2
        · rw [h2] at h; simp at h
        · rw [h2] at h
          simp only [] at h
          rcases h3 : argumentsLoop sm f source (sm.getArguments c) s2 with e | s3
          · rw [h3] at h; simp at h
          · rw [h3] at h
            simp only [Except.ok.injEq, Prod.mk.injEq] at h
            have e1 : Extends s s1 := extends_addNodeIsNew hA
            have e2 : Extends s1 s2 := by
              by_cases hk : sm.kind (sm.getExpression c) = SyntaxKind.Identifier
              · rw [if_pos hk] at h2
                exact ihDefs _ _ _ _ h2
              · rw [if_neg hk] at h2
                simp only [Except.ok.injEq] at h2
                rw [h2]; exact Extends.rfl
            have e3 : Extends s2 s3 := ihArgs _ _ _ _ h3
            rw [← h.2]
            exact (e1.trans e2).trans e3
    · -- definitionsLoop
      intro src l s s' h
      cases l with
      | nil =>
        rw [definitionsLoop] at h
        simp only [Except.ok.injEq] at h
        rw [← h]; exact Extends.rfl
      | cons d rest =>
        rw [definitionsLoop] at h
        rcases h1 : processDefinition sm f d s with e | ⟨dr, s1⟩
        · rw [h1] at h; simp at h
        · rw [h1] at h
          cases dr with
          | none => simp at h
          | some dnid =>
            simp only [] at h
            have e1 : Extends s s1 := ihPD _ _ _ _ h1
            have e2 : Extends s1 (spliceOutgoing src (outgoingEdges s1 dnid) s1) :=
              extends_spliceOutgoing _ _ _
            have e3 : Extends (spliceOutgoing src (outgoingEdges s1 dnid) s1) s' :=
              ihDefs _ _ _ _ h
            exact (e1.trans e2).trans e3
    · -- argumentsLoop
      intro src l s s' h
      cases l with
      | nil =>
        rw [argumentsLoop] at h
        simp only [Except.ok.injEq] at h
        rw [← h]; exact Extends.rfl
      | cons a rest =>
        rw [argumentsLoop] at h
        rcases h1 : processArgument sm f a s with e | ⟨ar, s1⟩
        · rw [h1] at h; simp at h
        · rw [h1] at h
          simp only [] at h
          have e1 : Extends s s1 := ihPA _ _ _ _ h1
          have e2 : Extends s1 (addEdge src ar .Argument s1).2 :=
            extends_addEdge _ _ _
          have e3 := ihArgs _ _ _ _ h
          exact (e1.trans e2).trans e3
    · -- childCallsLoop
      intro src l s s' h
      cases l with
      | nil =>
        rw [childCallsLoop] at h
        simp only [Except.ok.injEq] at h
        rw [← h]; exact Extends.rfl
      | cons call rest =>
        rw [childCallsLoop] at h
        rcases h1 : processCallExpression sm f call s with e | ⟨cr, s1⟩
        · rw [h1] at h; simp at h
        · rw [h1] at h
          simp only [] at h
          have e1 : Extends s s1 := ihCE _ _ _ _ h1
          have e2 : Extends s1 (addEdge src cr .Child s1).2 := extends_addEdge _ _ _
          have e3 := ihChild _ _ _ _ h
          exact (e1.trans e2).trans e3
    · -- referencesLoop
      intro src l s s' h
      cases l with
      | nil =>
        rw [referencesLoop] at h
        simp only [Except.ok.injEq] at h
        rw [← h]; exact Extends.rfl
      | cons rf rest =>
        rw [referencesLoop] at h
        cases hp1 : sm.parent rf with
        | none => rw [hp1] at h; simp at h
        | some temp =>
          rw [hp1] at h
          simp only [] at h
          cases hp2 : sm.parent temp with
          | none => rw [hp2] at h; simp at h
          | some call =>
            rw [hp2] at h
            simp only [] at h
            by_cases hc : sm.kind call = SyntaxKind.CallExpression ∧
                sm.getExpression call = temp
            · rw [if_pos hc] at h
              rcases h1 : processCallExpression sm f call s with e | ⟨cr, s1⟩
              · rw [h1] at h; simp at h
              · rw [h1] at h
                simp only [] at h
                have e1 : Extends s s1 := ihCE _ _ _ _ h1
                have e2 : Extends s1 (addEdge src cr .Call s1).2 := extends_addEdge _ _ _
                have e3 := ihRefs _ _ _ _ h
                exact (e1.trans e2).trans e3
            · rw [if_neg hc] at h
              exact ihRefs _ _ _ _ h
    · -- processDefinition
      intro d s r s' h
      rw [processDefinition] at h
      by_cases h1 : sm.kind d = SyntaxKind.VariableDeclaration
      · rw [if_pos h1] at h
        exact ihPVD _ _ _ _ _ h
      · rw [if_neg h1] at h
        by_cases h2 : sm.kind d = SyntaxKind.FunctionDeclaration
        · rw [if_pos h2] at h
          rcases h3 : processFunctionDeclaration sm f d s with e | ⟨fr, s1⟩
          · rw [h3] at h; simp at h
          · rw [h3] at h
            simp only [Except.ok.injEq, Prod.mk.injEq] at h
            rw [← h.2]
            exact ihPFD _ _ _ _ h3
        · rw [if_neg h2] at h
          simp only [Except.ok.injEq, Prod.mk.injEq] at h
          rw [← h.2, addNode]
          rcases hA : addNodeIsNew d NodeType.Any s with ⟨nid, b, s1⟩
          exact extends_addNodeIsNew hA
    · -- processVariableDeclaration
      intro d eo s r s' h
      rw [processVariableDeclaration] at h
      by_cases h1 : (eo && !sm.isExported d) = true
      · rw [if_pos h1] at h
        simp only [Except.ok.injEq, Prod.mk.injEq] at h
        rw [← h.2]; exact Extends.rfl
      · rw [if_neg h1] at h
        cases hi : sm.getInitializer d with
        | none => rw [hi] at h; simp at h
        | some init =>
          rw [hi] at h
          simp only [] at h
          rcases hA : addNodeIsNew d
              (if sm.kind init = SyntaxKind.ArrowFunction ∨
                  sm.kind init = SyntaxKind.FunctionExpression
               then NodeType.Function else NodeType.Object) s with ⟨source, b, s1⟩
          rw [hA] at h
          cases b with
          | false =>
            simp only [Except.ok.injEq, Prod.mk.injEq] at h
            rw [← h.2]
            exact extends_addNodeIsNew hA
          | true =>
            simp only [] at h
            have e1 : Extends s s1 := extends_addNodeIsNew hA
            by_cases hk : sm.kind init = SyntaxKind.ArrowFunction ∨
                sm.kind init = SyntaxKind.FunctionExpression
            · rw [if_pos hk] at h
              cases hb : sm.getBody init with
              | none => rw [hb] at h; simp at h
              | some bd =>
                rw [hb] at h
                simp only [] at h
                rcases h3 : childCallsLoop sm f source (sm.descendantCalls bd) s1
                    with e | s2
                · rw [h3] at h; simp at h
                · rw [h3] at h
                  simp only [Except.ok.injEq, Prod.mk.injEq] at h
                  rw [← h.2]
                  exact e1.trans (ihChild _ _ _ _ h3)
            · rw [if_neg hk] at h
              rcases h3 : referencesLoop sm f source (sm.findReferences d) s1
                  with e | s2
              · rw [h3] at h; simp at h
              · rw [h3] at h
                simp only [Except.ok.injEq, Prod.mk.injEq] at h
                rw [← h.2]
                exact e1.trans (ihRefs _ _ _ _ h3)
    · -- processFunctionDeclaration
      intro d s r s' h
      rw [processFunctionDeclaration] at h
      rcases hA : addNodeIsNew d NodeType.Function s with ⟨source, b, s1⟩
      rw [hA] at h
      cases b with
      | false =>
        simp only [Except.ok.injEq, Prod.mk.injEq] at h
        rw [← h.2]
        exact extends_addNodeIsNew hA
      | true =>
        simp only [] at h
        cases hb : sm.getBody d with
        | none => rw [hb] at h; simp at h
        | some bd =>
          rw [hb] at h
          simp only [] at h
          rcases h3 : childCallsLoop sm f source (sm.descendantCalls bd) s1 with e | s2
          · rw [h3] at h; simp at h
          · rw [h3] at h
            simp only [Except.ok.injEq, Prod.mk.injEq] at h
            rw [← h.2]
            exact (extends_addNodeIsNew hA).trans (ihChild _ _ _ _ h3)
    · -- processArgument
      intro a s r s' h
      rw [processArgument] at h
      rcases hA : addNodeIsNew a NodeType.Argument s with ⟨source, b, s1⟩
      rw [hA] at h
      cases b with
      | false =>
        simp only [Except.ok.injEq, Prod.mk.injEq] at h
        rw [← h.2]
        exact extends_addNodeIsNew hA
      | true =>
        simp only [] at h
        rcases h3 : childCallsLoop sm f source (sm.descendantCalls a) s1 with e | s2
        · rw [h3] at h; simp at h
        · rw [h3] at h
          simp only [Except.ok.injEq, Prod.mk.injEq] at h
          rw [← h.2]
          exact (extends_addNodeIsNew hA).trans (ihChild _ _ _ _ h3)

theorem lookupConstruct_addNodeIsNew_self {s s1 : GraphState} {c nid : Nat}
    {t : NodeType} (h : addNodeIsNew c t s = (nid, true, s1)) :
    lookupConstruct s1 c = some nid := by
  obtain ⟨hn, hid, hs⟩ := addNodeIsNew_true h
  rw [hs, lookupConstruct]
  show assocLookup (s.nodeToInfo ++ [(c, s.NEXT_NODE_ID)]) c = some nid
  rw [assocLookup_append_none _ hn, assocLookup]
  simp [hid]

theorem extends_processMethodDeclaration {sm : SourceModel} {fuel : Nat}
    {m : Nat} {s : GraphState} {r : Nat} {s' : GraphState}
    (h : processMethodDeclaration sm fuel m s = .ok (r, s')) : Extends s s' := by
  cases fuel with
  | zero => rw [processMethodDeclaration] at h; exact absurd h (by simp)
  | succ f =>
    rw [processMethodDeclaration] at h
    rcases hA : addNodeIsNew m NodeType.Function s with ⟨source, b, s1⟩
    rw [hA] at h
    cases b with
    | false =>
      simp only [Except.ok.injEq, Prod.mk.injEq] at h
      rw [← h.2]
      exact extends_addNodeIsNew hA
    | true =>
      simp only [] at h
      cases hb : sm.getBody m with
      | none => rw [hb] at h; simp at h
      | some bd =>
        rw [hb] at h
        simp only [] at h
        rcases h3 : childCallsLoop sm f source (sm.descendantCalls bd) s1 with e | s2
        · rw [h3] at h; simp at h
        · rw [h3] at h
          simp only [Except.ok.injEq, Prod.mk.injEq] at h
          rw [← h.2]
          exact (extends_addNodeIsNew hA).trans
            ((extends_mutual sm f).2.2.2.1 _ _ _ _ h3)

theorem extends_declarationsLoop {sm : SourceModel} {fuel : Nat}
    {l : List Nat} {s s' : GraphState}
    (h : declarationsLoop sm fuel l s = .ok s') : Extends s s' := by
  induction l generalizing s with
  | nil =>
    rw [declarationsLoop] at h
    simp only [Except.ok.injEq] at h
    rw [← h]; exact Extends.rfl
  | cons d rest ih =>
    rw [declarationsLoop] at h
    rcases h1 : processVariableDeclaration sm fuel d true s with e | ⟨r, s1⟩
    · rw [h1] at h; simp at h
    · rw [h1] at h
      simp only [] at h
      exact ((extends_mutual sm fuel).2.2.2.2.2.2.1 _ _ _ _ _ h1).trans (ih h)

theorem extends_variablesLoop {sm : SourceModel} {fuel : Nat}
    {l : List Nat} {s s' : GraphState}
    (h : variablesLoop sm fuel l s = .ok s') : Extends s s' := by
  induction l generalizing s with
  | nil =>
    rw [variablesLoop] at h
    simp only [Except.ok.injEq] at h
    rw [← h]; exact Extends.rfl
  | cons v rest ih =>
    rw [variablesLoop] at h
    cases hst : sm.varStatement v with
    | none => rw [hst] at h; simp at h
    | some stmt =>
      rw [hst] at h
      simp only [] at h
      rcases h1 : declarationsLoop sm fuel (sm.stmtDeclarations stmt) s with e | s1
      · rw [h1] at h; simp at h
      · rw [h1] at h
        simp only [] at h
        exact (extends_declarationsLoop h1).trans (ih h)

theorem extends_functionsLoop {sm : SourceModel} {fuel : Nat}
    {l : List Nat} {s s' : GraphState}
    (h : functionsLoop sm fuel l s = .ok s') : Extends s s' := by
  induction l generalizing s with
  | nil =>
    rw [functionsLoop] at h
    simp only [Except.ok.injEq] at h
    rw [← h]; exact Extends.rfl
  | cons fn rest ih =>
    rw [functionsLoop] at h
    rcases h1 : processFunctionDeclaration sm fuel fn s with e | ⟨r, s1⟩
    · rw [h1] at h; simp at h
    · rw [h1] at h
      simp only [] at h
      exact ((extends_mutual sm fuel).2.2.2.2.2.2.2.1 _ _ _ _ h1).trans (ih h)

theorem extends_methodsLoop {sm : SourceModel} {fuel : Nat}
    {l : List Nat} {s s' : GraphState}
    (h : methodsLoop sm fuel l s = .ok s') : Extends s s' := by
  induction l generalizing s with
  | nil =>
    rw [methodsLoop] at h
    simp only [Except.ok.injEq] at h
    rw [← h]; exact Extends.rfl
  | cons m rest ih =>
    rw [methodsLoop] at h
    rcases h1 : processMethodDeclaration sm fuel m s with e | ⟨r, s1⟩
    · rw [h1] at h; simp at h
    · rw [h1] at h
      simp only [] at h
      exact (extends_processMethodDeclaration h1).trans (ih h)

theorem extends_classesLoop {sm : SourceModel} {fuel : Nat}
    {l : List Nat} {s s' : GraphState}
    (h : classesLoop sm fuel l s = .ok s') : Extends s s' := by
  induction l generalizing s with
  | nil =>
    rw [classesLoop] at h
    simp only [Except.ok.injEq] at h
    rw [← h]; exact Extends.rfl
  | cons c rest ih =>
    rw [classesLoop] at h
    rcases h1 : processClass sm fuel c s with e | s1
    · rw [h1] at h; simp at h
    · rw [h1] at h
      simp only [] at h
      rw [processClass] at h1
      exact (extends_methodsLoop h1).trans (ih h)

theorem extends_processFile {sm : SourceModel} {fuel : Nat}
    {file : Nat} {s s' : GraphState}
    (h : processFile sm fuel file s = .ok s') : Extends s s' := by
  rw [processFile] at h
  rcases h1 : processVariables sm fuel file s with e | s1
  · rw [h1] at h; simp at h
  · rw [h1] at h
    simp only [] at h
    rcases h2 : processFunctions sm fuel file s1 with e | s2
    · rw [h2] at h; simp at h
    · rw [h2] at h
      simp only [] at h
      rw [processVariables] at h1
      rw [processFunctions] at h2
      rw [processClasses] at h
      exact ((extends_variablesLoop h1).trans (extends_functionsLoop h2)).trans
        (extends_classesLoop h)

theorem extends_filesLoop {sm : SourceModel} {fuel : Nat}
    {l : List Nat} {s s' : GraphState}
    (h : filesLoop sm fuel l s = .ok s') : Extends s s' := by
  induction l generalizing s with
  | nil =>
    rw [filesLoop] at h
    simp only [Except.ok.injEq] at h
    rw [← h]; exact Extends.rfl
  | cons file rest ih =>
    rw [filesLoop] at h
    rcases h1 : processFile sm fuel file s with e | s1
    · rw [h1] at h; simp at h
    · rw [h1] at h
      simp only [] at h
      exact (extends_processFile h1).trans (ih h)

theorem pCE_registers {sm : SourceModel} {fuel : Nat} {c : Nat}
    {s : GraphState} {r : Nat} {s' : GraphState}
    (h : processCallExpression sm fuel c s = .ok (r, s')) :
    lookupConstruct s' c = some r := by
  cases fuel with
  | zero => rw [processCallExpression] at h; exact absurd h (by simp)
  | succ f =>
    rw [processCallExpression] at h
    rcases hA : addNodeIsNew c NodeType.Call s with ⟨source, b, s1⟩
    rw [hA] at h
    cases b with
    | false =>
      simp only [Except.ok.injEq, Prod.mk.injEq] at h
      obtain ⟨hs, hl⟩ := addNodeIsNew_false hA
      rw [← h.2, hs, ← h.1]
      exact hl
    | true =>
      simp only [] at h
      have hreg : lookupConstruct s1 c = some source :=
        lookupConstruct_addNodeIsNew_self hA
      rcases h2 : (if sm.kind (sm.getExpression c) = SyntaxKind.Identifier then
            definitionsLoop sm f source (sm.getDefinitionNodes (sm.getExpression c)) s1
          else .ok s1) with e | s2
      · rw [h2] at h; simp at h
      · rw [h2] at h
        simp only [] at h
        rcases h3 : argumentsLoop sm f source (sm.getArguments c) s2 with e | s3
        · rw [h3] at h; simp at h
        · rw [h3] at h
          simp only [Except.ok.injEq, Prod.mk.injEq] at h
          have e2 : Extends s1 s2 := by
            by_cases hk : sm.kind (sm.getExpression c) = SyntaxKind.Identifier
            · rw [if_pos hk] at h2
              exact (extends_mutual sm f).2.1 _ _ _ _ h2
            · rw [if_neg hk] at h2
              simp only [Except.ok.injEq] at h2
              rw [h2]; exact Extends.rfl
          have e3 : Extends s2 s3 := (extends_mutual sm f).2.2.1 _ _ _ _ h3
          rw [← h.2, ← h.1]
          exact e3.registry _ _ (e2.registry _ _ hreg)

theorem pArg_registers {sm : SourceModel} {fuel : Nat} {a : Nat}
    {s : GraphState} {r : Nat} {s' : GraphState}
    (h : processArgument sm fuel a s = .ok (r, s')) :
    lookupConstruct s' a = some r := by
  cases fuel with
  | zero => rw [processArgument] at h; exact absurd h (by simp)
  | succ f =>
    rw [processArgument] at h
    rcases hA : addNodeIsNew a NodeType.Argument s with ⟨source, b, s1⟩
    rw [hA] at h
    cases b with
    | false =>
      simp only [Except.ok.injEq, Prod.mk.injEq] at h
      obtain ⟨hs, hl⟩ := addNodeIsNew_false hA
      rw [← h.2, hs, ← h.1]
      exact hl
    | true =>
      simp only [] at h
      rcases h3 : childCallsLoop sm f source (sm.descendantCalls a) s1 with e | s2
      · rw [h3] at h; simp at h
      · rw [h3] at h
        simp only [Except.ok.injEq, Prod.mk.injEq] at h
        rw [← h.2, ← h.1]
        exact ((extends_mutual sm f).2.2.2.1 _ _ _ _ h3).registry _ _
          (lookupConstruct_addNodeIsNew_self hA)

theorem pFD_registers {sm : SourceModel} {fuel : Nat} {d : Nat}
    {s : GraphState} {r : Nat} {s' : GraphState}
    (h : processFunctionDeclaration sm fuel d s = .ok (r, s')) :
    lookupConstruct s' d = some r := by
  cases fuel with
  | zero => rw [processFunctionDeclaration] at h; exact absurd h (by simp)
  | succ f =>
    rw [processFunctionDeclaration] at h
    rcases hA : addNodeIsNew d NodeType.Function s with ⟨source, b, s1⟩
    rw [hA] at h
    cases b with
    | false =>
      simp only [Except.ok.injEq, Prod.mk.injEq] at h
      obtain ⟨hs, hl⟩ := addNodeIsNew_false hA
      rw [← h.2, hs, ← h.1]
      exact hl
    | true =>
      simp only [] at h
      cases hb : sm.getBody d with
      | none => rw [hb] at h; simp at h
      | some bd =>
        rw [hb] at h
        simp only [] at h
        rcases h3 : childCallsLoop sm f source (sm.descendantCalls bd) s1 with e | s2
        · rw [h3] at h; simp at h
        · rw [h3] at h
          simp only [Except.ok.injEq, Prod.mk.injEq] at h
          rw [← h.2, ← h.1]
          exact ((extends_mutual sm f).2.2.2.1 _ _ _ _ h3).registry _ _
            (lookupConstruct_addNodeIsNew_self hA)

theorem pMD_registers {sm : SourceModel} {fuel : Nat} {m : Nat}
    {s : GraphState} {r : Nat} {s' : GraphState}
    (h : processMethodDeclaration sm fuel m s = .ok (r, s')) :
    lookupConstruct s' m = some r := by
  cases fuel with
  | zero => rw [processMethodDeclaration] at h; exact absurd h (by simp)
  | succ f =>
    rw [processMethodDeclaration] at h
    rcases hA : addNodeIsNew m NodeType.Function s with ⟨source, b, s1⟩
    rw [hA] at h
    cases b with
    | false =>
      simp only [Except.ok.injEq, Prod.mk.injEq] at h
      obtain ⟨hs, hl⟩ := addNodeIsNew_false hA
      rw [← h.2, hs, ← h.1]
      exact hl
    | true =>
      simp only [] at h
      cases hb : sm.getBody m with
      | none => rw [hb] at h; simp at h
      | some bd =>
        rw [hb] at h
        simp only [] at h
        rcases h3 : childCallsLoop sm f source (sm.descendantCalls bd) s1 with e | s2
        · rw [h3] at h; simp at h
        · rw [h3] at h
          simp only [Except.ok.injEq, Prod.mk.injEq] at h
          rw [← h.2, ← h.1]
          exact ((extends_mutual sm f).2.2.2.1 _ _ _ _ h3).registry _ _
            (lookupConstruct_addNodeIsNew_self hA)

theorem pVD_inversion {sm : SourceModel} {fuel : Nat} {d : Nat} {eo : Bool}
    {s : GraphState} {r : Option Nat} {s' : GraphState}
    (h : processVariableDeclaration sm fuel d eo s = .ok (r, s')) :
    (r = none → (eo && !sm.isExported d) = true ∧ s' = s) ∧
    (∀ v, r = some v → (eo && !sm.isExported d) = false ∧
      (∃ init, sm.getInitializer d = some init) ∧
      lookupConstruct s' d = some v) := by
  cases fuel with
  | zero => rw [processVariableDeclaration] at h; exact absurd h (by simp)
  | succ f =>
    rw [processVariableDeclaration] at h
    by_cases h1 : (eo && !sm.isExported d) = true
    · rw [if_pos h1] at h
      simp only [Except.ok.injEq, Prod.mk.injEq] at h
      constructor
      · intro _; exact ⟨h1, h.2.symm⟩
      · intro v hv; rw [hv] at h; simp at h
    · rw [if_neg h1] at h
      cases hi : sm.getInitializer d with
      | none => rw [hi] at h; simp at h
      | some init =>
        rw [hi] at h
        simp only [] at h
        rcases hA : addNodeIsNew d
            (if sm.kind init = SyntaxKind.ArrowFunction ∨
                sm.kind init = SyntaxKind.FunctionExpression
             then NodeType.Function else NodeType.Object) s with ⟨source, b, s1⟩
        rw [hA] at h
        have hne : (eo && !sm.isExported d) = false := by
          cases hx : (eo && !sm.isExported d) with
          | false => rfl
          | true => exact absurd hx h1
        cases b with
        | false =>
          simp only [Except.ok.injEq, Prod.mk.injEq] at h
          obtain ⟨hs, hl⟩ := addNodeIsNew_false hA
          refine ⟨fun hnone => ?_, fun v hv => ?_⟩
          · rw [hnone] at h; simp at h
          · rw [hv] at h
            simp only [Option.some.injEq] at h
            exact ⟨hne, ⟨init, rfl⟩, by rw [← h.2, hs, ← h.1]; exact hl⟩
        | true =>
          simp only [] at h
          have hreg : lookupConstruct s1 d = some source :=
            lookupConstruct_addNodeIsNew_self hA
          by_cases hk : sm.kind init = SyntaxKind.ArrowFunction ∨
              sm.kind init = SyntaxKind.FunctionExpression
          · rw [if_pos hk] at h
            cases hb : sm.getBody init with
            | none => rw [hb] at h; simp at h
            | some bd =>
              rw [hb] at h
              simp only [] at h
              rcases h3 : childCallsLoop sm f source (sm.descendantCalls bd) s1
                  with e | s2
              · rw [h3] at h; simp at h
              · rw [h3] at h
                simp only [Except.ok.injEq, Prod.mk.injEq] at h
                refine ⟨fun hnone => ?_, fun v hv => ?_⟩
                · rw [hnone] at h; simp at h
                · rw [hv] at h
                  simp only [Option.some.injEq] at h
                  refine ⟨hne, ⟨init, rfl⟩, ?_⟩
                  rw [← h.2, ← h.1]
                  exact ((extends_mutual sm f).2.2.2.1 _ _ _ _ h3).registry _ _ hreg
          · rw [if_neg hk] at h
            rcases h3 : referencesLoop sm f source (sm.findReferences d) s1
                with e | s2
            · rw [h3] at h; simp at h
            · rw [h3] at h
              simp only [Except.ok.injEq, Prod.mk.injEq] at h
              refine ⟨fun hnone => ?_, fun v hv => ?_⟩
              · rw [hnone] at h; simp at h
              · rw [hv] at h
                simp only [Option.some.injEq] at h
                refine ⟨hne, ⟨init, rfl⟩, ?_⟩
                rw [← h.2, ← h.1]
                exact ((extends_mutual sm f).2.2.2.2.1 _ _ _ _ h3).registry _ _ hreg

/-- Claim C7 — Scenario B: processing `export const foo = new Foo();` with
the later statement `foo.bar(5, double);` yields exactly one `Object` node
(for `foo`), one `Call` node (the call, construct 5) discovered through the
reference search and linked from `foo` by a `Call` edge, two `Argument`
nodes for `5` and `double` linked from the call node by `Argument` edges,
and no `Child` edge at all — in particular none from the call node to
`bar`'s definition (construct 11), because the callee `foo.bar` is a
property access, not a bare identifier, so no resolution is attempted. -/
theorem scenarioB_graph :
    buildGraph smB 30 = .ok builtB ∧
    (∀ n ∈ builtB.nodes, n.type = NodeType.Object ↔ n.construct = 1) ∧
    (∀ n ∈ builtB.nodes, n.type = NodeType.Call ↔ n.construct = 5) ∧
    (⟨2, 0, 1, .Call⟩ : EdgeData) ∈ builtB.edges ∧
    (∀ n ∈ builtB.nodes, n.type = NodeType.Argument ↔ (n.construct = 6 ∨ n.construct = 7)) ∧
    (⟨0, 1, 2, .Argument⟩ : EdgeData) ∈ builtB.edges ∧
    (⟨1, 1, 3, .Argument⟩ : EdgeData) ∈ builtB.edges ∧
    (∀ e ∈ builtB.edges, e.type ≠ EdgeType.Child) := by
  decide

/-- Claim C8 — exported-only pruning: with `export_only = true` (the value
every caller uses), a non-exported variable declaration is dismissed with
`undefined` before anything else happens — the state is returned untouched
and no node is created; the statement quantifies over every source model,
so it holds in particular when the declaration has no initializer (the
initializer is never looked up).  On the concrete Scenario C program the
whole build finishes with the empty graph: no node for `helper`
(construct 1) ever exists. -/
theorem exported_only_pruning :
    (∀ sm : SourceModel, ∀ fuel d : Nat, ∀ s : GraphState,
      sm.isExported d = false →
      processVariableDeclaration sm (fuel + 1) d true s = .ok (none, s)) ∧
    buildGraph smC 30 = .ok emptyGraph ∧
    (∀ n ∈ emptyGraph.nodes, n.construct ≠ 1) := by
  refine ⟨fun sm fuel d s h => ?_, by decide, by decide⟩
  rw [processVariableDeclaration, if_pos (by rw [h]; rfl)]

/-- Witness for `exported_only_pruning` at Scenario C's `helper`. -/
theorem exported_only_pruning_witness :
    processVariableDeclaration smC 10 1 true emptyGraph = .ok (none, emptyGraph) :=
  exported_only_pruning.1 smC 9 1 emptyGraph (by decide)

/-- Claim C9 — the first registration fixes a node's type: requesting an
already-registered construct with any (possibly different) node type
returns the existing node and leaves the state — hence the stored type —
untouched.  Concretely, in the Scenario A graph the inner call expression
(construct 5) was first reached in argument position and registered as an
`Argument`-typed node (node 3), and a later `processCallExpression` on that
same call expression returns node 3 unchanged instead of creating a `Call`
node. -/
theorem first_registration_fixes_type :
    (∀ s : GraphState, ∀ c nid : Nat, ∀ t' : NodeType,
      lookupConstruct s c = some nid → addNodeIsNew c t' s = (nid, false, s)) ∧
    nodeTypeAt builtA 3 = some NodeType.Argument ∧
    processCallExpression smA 9 5 builtA = .ok (3, builtA) := by
  exact ⟨fun s c nid t' h => addNodeIsNew_hit t' h, by decide, by decide⟩

/-- Witness for `first_registration_fixes_type`: requesting the inner call
expression of Scenario A again, this time as a `Call` node, returns the
existing `Argument`-typed node 3. -/
theorem first_registration_fixes_type_witness :
    addNodeIsNew 5 NodeType.Call builtA = (3, false, builtA) :=
  first_registration_fixes_type.1 builtA 5 3 NodeType.Call (by decide)

/-- Claim C1 — edge-pair coalescing never happens: `addEdgeIsNew` consults
`edgeInfo`, but no statement of the program ever inserts into that map, so
in every state reachable from the constructor (where `edgeInfo` is empty —
every successfully built graph included) the lookup misses and *every*
request allocates a fresh edge with `isNew = true`, growing the edge store
and the adjacency lists; a second request for an already-linked ordered
pair does not return the existing edge.  The last two conjuncts evaluate
the failing input: two identical `addEdge 0 1 Child` requests on the
two-node graph produce two edges, the second again reporting
`isNew = true`. -/
theorem addEdge_never_coalesces :
    (∀ sm : SourceModel, ∀ fuel : Nat, ∀ s' : GraphState,
      buildGraph sm fuel = .ok s' → s'.edgeInfo = []) ∧
    (∀ s : GraphState, ∀ src dst : Nat, ∀ t : EdgeType, s.edgeInfo = [] →
      (addEdgeIsNew src dst t s).2.1 = true ∧
      (addEdgeIsNew src dst t s).2.2.edges =
        s.edges ++ [⟨s.NEXT_EDGE_ID, src, dst, t⟩] ∧
      (addEdgeIsNew src dst t s).2.2.edgeInfo = []) ∧
    (addEdgeIsNew 0 1 EdgeType.Child
      (addEdge 0 1 EdgeType.Child twoNodes).2).2.1 = true ∧
    (addEdgeIsNew 0 1 EdgeType.Child
      (addEdge 0 1 EdgeType.Child twoNodes).2).2.2.edges.length = 2 := by
  refine ⟨fun sm fuel s' h => ?_, fun s src dst t h => ?_, by decide, by decide⟩
  · rw [buildGraph] at h
    exact (extends_filesLoop h).edgeInfoEq
  · rw [addEdgeIsNew, h]
    exact ⟨rfl, rfl, rfl⟩

/-- Witness for `addEdge_never_coalesces` on the two-node graph. -/
theorem addEdge_never_coalesces_witness :
    (addEdgeIsNew 0 1 EdgeType.Child twoNodes).2.1 = true ∧
    (addEdgeIsNew 0 1 EdgeType.Child twoNodes).2.2.edges =
      twoNodes.edges ++ [⟨twoNodes.NEXT_EDGE_ID, 0, 1, EdgeType.Child⟩] ∧
    (addEdgeIsNew 0 1 EdgeType.Child twoNodes).2.2.edgeInfo = [] :=
  addEdge_never_coalesces.2.1 twoNodes 0 1 EdgeType.Child rfl

/-- Claim C2 as stated is false on the code: running the builder on
Scenario A yields exactly one `Call` node — the outer call (construct 4) —
not two; the inner call expression (construct 5) is registered with type
`Argument`, not `Call`, because it is first reached in argument position
and the argument construct *is* the call expression (there is no wrapper
node); and every `Child` edge of the graph has `bar`'s node 0 as source, so
no `Child` edge runs from an `Argument` node to an inner `Call` node. -/
theorem scenarioA_claim_false :
    buildGraph smA 30 = .ok builtA ∧
    (∀ n ∈ builtA.nodes, n.type = NodeType.Call ↔ n.construct = 4) ∧
    (∃ n ∈ builtA.nodes, n.construct = 5 ∧ n.type = NodeType.Argument) ∧
    (∀ e ∈ builtA.edges, e.type = EdgeType.Child → e.source = 0) := by
  decide

/-- Claim C2, amended to the actual Scenario A graph: one `Function` node
for `bar` (construct 2, node 0); one `Call` node for the outer call
(construct 4, node 1); the inner call expression itself registered as the
`Argument` node (construct 5, node 3); an `Any` node for the `callback`
parameter the callee resolves to (construct 9, node 2); `Child` edges from
`bar` to the outer call node and to the inner call's `Argument` node (the
body scan registers both calls; the second registration hits the guard);
and an `Argument` edge from the outer call node to the inner call's node.
No separate wrapper node exists and no `Child` edge leaves the `Argument`
node. -/
theorem scenarioA_graph :
    buildGraph smA 30 = .ok builtA ∧
    (∃ n ∈ builtA.nodes, n.construct = 2 ∧ n.type = NodeType.Function ∧ n.id = 0) ∧
    (∃ n ∈ builtA.nodes, n.construct = 4 ∧ n.type = NodeType.Call ∧ n.id = 1) ∧
    (∃ n ∈ builtA.nodes, n.construct = 5 ∧ n.type = NodeType.Argument ∧ n.id = 3) ∧
    (∃ n ∈ builtA.nodes, n.construct = 9 ∧ n.type = NodeType.Any ∧ n.id = 2) ∧
    (⟨1, 0, 1, .Child⟩ : EdgeData) ∈ builtA.edges ∧
    (⟨2, 0, 3, .Child⟩ : EdgeData) ∈ builtA.edges ∧
    (⟨0, 1, 3, .Argument⟩ : EdgeData) ∈ builtA.edges ∧
    (∀ e ∈ builtA.edges, e.source ≠ 3) ∧
    builtA.nodes.length = 4 ∧ builtA.edges.length = 3 := by
  decide

/-- Claim C5 as stated is false on the code: in the `smD` build the call
`foo(1)` (node 3) resolves its callee to the declaration of `foo` (node 0),
whose only outgoing edge is the `Call`-typed edge 0; the splice
nevertheless adds the `Child` edge 1 from node 3 to that edge's destination
(node 1), although the definition node has no outgoing `Child` edge at
all — so the splice is not restricted to `Child` edges. -/
theorem splice_claim_false :
    buildGraph smD 30 = .ok builtD ∧
    (∀ n ∈ builtD.nodes, n.construct = 1 → n.outgoing = [0]) ∧
    (∀ e ∈ builtD.edges, e.id = 0 → e.type = EdgeType.Call) ∧
    (⟨1, 3, 1, EdgeType.Child⟩ : EdgeData) ∈ builtD.edges := by
  decide

/-- Claim C5, amended: the splice loop of `processCallExpression` iterates
*every* outgoing edge of the resolved definition node, regardless of the
edge's type, and adds a fresh `Child` edge from the call node to each
edge's destination (ids allocated consecutively; nothing is deduplicated
since the edge-dedup map is never populated).  The concrete conjuncts show
a `Call`-typed edge being spliced in the `smD` build. -/
theorem splice_all_outgoing :
    (∀ src : Nat, ∀ es : List EdgeData, ∀ s : GraphState, s.edgeInfo = [] →
      (spliceOutgoing src es s).edges =
        s.edges ++ spliceAppend src s.NEXT_EDGE_ID es) ∧
    buildGraph smD 30 = .ok builtD ∧
    (∀ e ∈ builtD.edges, e.id = 0 → e.type = EdgeType.Call) ∧
    (⟨1, 3, 1, EdgeType.Child⟩ : EdgeData) ∈ builtD.edges := by
  refine ⟨fun src es => ?_, by decide, by decide, by decide⟩
  induction es with
  | nil => intro s h; rw [spliceOutgoing, spliceAppend, List.append_nil]
  | cons e rest ih =>
    intro s h
    rw [spliceOutgoing, spliceAppend, addEdge, addEdgeIsNew, h]
    simp only [assocLookup]
    rw [ih _ rfl]
    simp

/-- Witness for `splice_all_outgoing`: splicing `foo`'s single `Call`-typed
outgoing edge onto call node 3 of the `smD` graph appends exactly one fresh
`Child` edge to that edge's destination. -/
theorem splice_all_outgoing_witness :
    (spliceOutgoing 3 [⟨0, 0, 1, EdgeType.Call⟩] builtD).edges =
      builtD.edges ++ spliceAppend 3 builtD.NEXT_EDGE_ID [⟨0, 0, 1, EdgeType.Call⟩] :=
  splice_all_outgoing.1 3 [⟨0, 0, 1, EdgeType.Call⟩] builtD rfl

/-- Claim C3 — idempotence of the process operations: whenever a first call
succeeds with result `r` and state `s'`, running the same operation on the
same construct again (with any non-zero budget) returns the very same
result and leaves the whole graph untouched, because the registry guard
fires before any expansion.  For `processVariableDeclaration` the result is
an `Option`: a pruned declaration returns `none` twice without ever
touching the state, a processed one returns the same node id twice. -/
theorem process_idempotent (sm : SourceModel) :
    (∀ fuel c : Nat, ∀ s : GraphState, ∀ r : Nat, ∀ s' : GraphState, ∀ g : Nat,
      processCallExpression sm fuel c s = .ok (r, s') →
      processCallExpression sm (g + 1) c s' = .ok (r, s')) ∧
    (∀ fuel a : Nat, ∀ s : GraphState, ∀ r : Nat, ∀ s' : GraphState, ∀ g : Nat,
      processArgument sm fuel a s = .ok (r, s') →
      processArgument sm (g + 1) a s' = .ok (r, s')) ∧
    (∀ fuel d : Nat, ∀ s : GraphState, ∀ r : Nat, ∀ s' : GraphState, ∀ g : Nat,
      processFunctionDeclaration sm fuel d s = .ok (r, s') →
      processFunctionDeclaration sm (g + 1) d s' = .ok (r, s')) ∧
    (∀ fuel m : Nat, ∀ s : GraphState, ∀ r : Nat, ∀ s' : GraphState, ∀ g : Nat,
      processMethodDeclaration sm fuel m s = .ok (r, s') →
      processMethodDeclaration sm (g + 1) m s' = .ok (r, s')) ∧
    (∀ fuel d : Nat, ∀ eo : Bool, ∀ s : GraphState, ∀ r : Option Nat,
      ∀ s' : GraphState, ∀ g : Nat,
      processVariableDeclaration sm fuel d eo s = .ok (r, s') →
      processVariableDeclaration sm (g + 1) d eo s' = .ok (r, s')) := by
  refine ⟨fun fuel c s r s' g h => ?_, fun fuel a s r s' g h => ?_,
    fun fuel d s r s' g h => ?_, fun fuel m s r s' g h => ?_,
    fun fuel d eo s r s' g h => ?_⟩
  · rw [processCallExpression, addNodeIsNew_hit NodeType.Call (pCE_registers h)]
  · rw [processArgument, addNodeIsNew_hit NodeType.Argument (pArg_registers h)]
  · rw [processFunctionDeclaration, addNodeIsNew_hit NodeType.Function (pFD_registers h)]
  · rw [processMethodDeclaration, addNodeIsNew_hit NodeType.Function (pMD_registers h)]
  · obtain ⟨hnone, hsome⟩ := pVD_inversion h
    cases r with
    | none =>
      obtain ⟨hcheck, hss⟩ := hnone rfl
      rw [hss, processVariableDeclaration, if_pos hcheck]
    | some v =>
      obtain ⟨hcheck, ⟨init, hi⟩, hreg⟩ := hsome v rfl
      rw [processVariableDeclaration, if_neg (by rw [hcheck]; simp), hi]
      simp only []
      rw [addNodeIsNew_hit _ hreg]

/-- Witness for `process_idempotent`: processing `bar`'s method declaration
of Scenario A a second time returns the same node 0 and leaves the built
graph unchanged. -/
theorem process_idempotent_witness :
    processMethodDeclaration smA 9 2 builtA = .ok (0, builtA) :=
  (process_idempotent smA).2.2.2.1 29 2 emptyGraph 0 builtA 8 (by decide)

theorem findNode_none {nodes : List NodeData} {x : Nat}
    (h : ∀ n ∈ nodes, n.id ≠ x) : findNode nodes x = none := by
  induction nodes with
  | nil => rfl
  | cons m rest ih =>
    rw [findNode, if_neg (h m (List.mem_cons_self _ _))]
    exact ih fun n hn => h n (List.mem_cons_of_mem _ hn)

theorem findNode_append_none {nodes : List NodeData} (extra : List NodeData)
    {x : Nat} (h : findNode nodes x = none) :
    findNode (nodes ++ extra) x = findNode extra x := by
  induction nodes with
  | nil => rfl
  | cons m rest ih =>
    rw [findNode] at h
    rw [List.cons_append, findNode]
    by_cases hm : m.id = x
    · simp [hm] at h
    · simp only [hm, if_false] at h ⊢
      exact ih h

theorem findEdge_none {edges : List EdgeData} {x : Nat}
    (h : ∀ e ∈ edges, e.id ≠ x) : findEdge edges x = none := by
  induction edges with
  | nil => rfl
  | cons d rest ih =>
    rw [findEdge, if_neg (h d (List.mem_cons_self _ _))]
    exact ih fun e he => h e (List.mem_cons_of_mem _ he)

theorem findEdge_append_none {edges : List EdgeData} (extra : List EdgeData)
    {x : Nat} (h : findEdge edges x = none) :
    findEdge (edges ++ extra) x = findEdge extra x := by
  induction edges with
  | nil => rfl
  | cons d rest ih =>
    rw [findEdge] at h
    rw [List.cons_append, findEdge]
    by_cases hd : d.id = x
    · simp [hd] at h
    · simp only [hd, if_false] at h ⊢
      exact ih h

theorem wfState_empty : WFState emptyGraph :=
  ⟨by simp [emptyGraph], by simp [emptyGraph], by simp [emptyGraph],
   by simp [emptyGraph], by simp [emptyGraph]⟩

theorem argEdgeInv_empty : ArgEdgeInv emptyGraph := by
  intro e he
  simp [emptyGraph] at he

theorem wf_addNodeIsNew {s s1 : GraphState} {c nid : Nat} {t : NodeType}
    {b : Bool} (hWF : WFState s) (hInv : ArgEdgeInv s)
    (h : addNodeIsNew c t s = (nid, b, s1)) : WFState s1 ∧ ArgEdgeInv s1 := by
  cases b with
  | false => rw [(addNodeIsNew_false h).1]; exact ⟨hWF, hInv⟩
  | true =>
    obtain ⟨hn, hid, hs⟩ := addNodeIsNew_true h
    have hfresh : findNode s.nodes s.NEXT_NODE_ID = none :=
      findNode_none fun n hn => Nat.ne_of_lt (hWF.nodeBound n hn)
    subst hs
    constructor
    · constructor
      · intro n hmem
        rcases List.mem_append.mp hmem with hold | hnew
        · exact findNode_append_some _ (hWF.nodeSelf n hold)
        · simp only [List.mem_singleton] at hnew
          subst hnew
          show findNode (s.nodes ++ [_]) s.NEXT_NODE_ID = _
          rw [findNode_append_none _ hfresh, findNode]
          simp
      · intro n hmem eid heid
        rcases List.mem_append.mp hmem with hold | hnew
        · exact hWF.outBound n hold eid heid
        · simp only [List.mem_singleton] at hnew
          subst hnew
          simp at heid
      · intro n hmem eid heid e hfe
        rcases List.mem_append.mp hmem with hold | hnew
        · exact hWF.outSrc n hold eid heid e hfe
        · simp only [List.mem_singleton] at hnew
          subst hnew
          simp at heid
      · intro n hmem
        rcases List.mem_append.mp hmem with hold | hnew
        · exact Nat.lt_succ_of_lt (hWF.nodeBound n hold)
        · simp only [List.mem_singleton] at hnew
          subst hnew
          exact Nat.lt_succ_self _
      · intro e he
        exact hWF.edgeBound e he
    · intro e he het
      have := hInv e he het
      rw [nodeTypeAt] at this ⊢
      cases hf : findNode s.nodes e.source with
      | none => rw [hf] at this; simp at this
      | some n =>
        rw [hf] at this
        show ((findNode (s.nodes ++ [_]) e.source).map fun n => n.type) = _
        rw [findNode_append_some _ hf]
        exact this

theorem wf_addEdge {s : GraphState} (src dst : Nat) (t : EdgeType)
    (hWF : WFState s) (hInv : ArgEdgeInv s)
    (hArg : t = EdgeType.Argument → nodeTypeAt s src = some NodeType.Call) :
    WFState (addEdge src dst t s).2 ∧ ArgEdgeInv (addEdge src dst t s).2 := by
  have hext : Extends s (addEdge src dst t s).2 := extends_addEdge src dst t
  rcases addEdgeIsNew_cases (s := s) src dst t with ⟨eid, _, he⟩ | ⟨_, he⟩
  · rw [addEdge, he]; exact ⟨hWF, hInv⟩
  · rw [addEdge, he] at hext ⊢
    set E : EdgeData := ⟨s.NEXT_EDGE_ID, src, dst, t⟩ with hE
    have hfreshE : findEdge s.edges s.NEXT_EDGE_ID = none :=
      findEdge_none fun e hmem => Nat.ne_of_lt (hWF.edgeBound e hmem)
    have hFindE : ∀ x, x < s.NEXT_EDGE_ID → ∀ e,
        findEdge (s.edges ++ [E]) x = some e → findEdge s.edges x = some e := by
      intro x hx e hfe
      cases hf : findEdge s.edges x with
      | some e0 =>
        rw [findEdge_append_some [E] hf] at hfe
        exact hfe
      | none =>
        rw [findEdge_append_none [E] hf, findEdge] at hfe
        rw [if_neg (by exact fun hEid => Nat.ne_of_lt hx hEid.symm)] at hfe
        exact absurd hfe (by rw [findEdge]; simp)
    have hrwN : ∀ x, findNode
        (updateNode
          (updateNode s.nodes src fun n =>
            { n with outgoing := n.outgoing ++ [s.NEXT_EDGE_ID] })
          dst fun n => { n with incoming := n.incoming ++ [s.NEXT_EDGE_ID] }) x =
        ((findNode s.nodes x).map (fun n =>
          if n.id = src then { n with outgoing := n.outgoing ++ [s.NEXT_EDGE_ID] }
          else n)).map (fun n =>
          if n.id = dst then { n with incoming := n.incoming ++ [s.NEXT_EDGE_ID] }
          else n) := by
      intro x
      rw [findNode_updateNode dst
          (fun n => { n with incoming := n.incoming ++ [s.NEXT_EDGE_ID] })
          (fun n => rfl) x,
        findNode_updateNode src
          (fun n => { n with outgoing := n.outgoing ++ [s.NEXT_EDGE_ID] })
          (fun n => rfl) x]
    have hmemNodes : ∀ n', n' ∈ updateNode
        (updateNode s.nodes src fun n =>
          { n with outgoing := n.outgoing ++ [s.NEXT_EDGE_ID] })
        dst (fun n => { n with incoming := n.incoming ++ [s.NEXT_EDGE_ID] }) →
        ∃ n ∈ s.nodes,
          n'.id = n.id ∧ n'.type = n.type ∧
          (n'.outgoing = n.outgoing ∨
            (n.id = src ∧ n'.outgoing = n.outgoing ++ [s.NEXT_EDGE_ID])) := by
      intro n' hmem
      rw [updateNode, updateNode] at hmem
      rw [List.map_map] at hmem
      rcases List.mem_map.mp hmem with ⟨n, hn, hEq⟩
      refine ⟨n, hn, ?_⟩
      subst hEq
      simp only [Function.comp]
      by_cases h1 : n.id = src
      · by_cases h2 : n.id = dst
        · simp [h1, h2, h1.symm.trans h2]
        · simp [h1, h2, show ¬(src = dst) from fun hsd => h2 (h1.trans hsd)]
      · by_cases h2 : n.id = dst
        · simp [h1, h2, show ¬(dst = src) from fun hds => h1 (h2.trans hds)]
        · simp [h1, h2]
    constructor
    · constructor
      · -- nodeSelf
        intro n' hmem
        have hmem' := hmem
        rw [updateNode, updateNode, List.map_map] at hmem'
        rcases List.mem_map.mp hmem' with ⟨n, hn, hEq⟩
        show findNode (updateNode (updateNode s.nodes src _) dst _) n'.id = some n'
        rw [hrwN n'.id]
        have hid' : n'.id = n.id := by
          subst hEq
          simp only [Function.comp]
          by_cases h1 : n.id = src
          · by_cases h2 : n.id = dst
            · simp [h1, h2, h1.symm.trans h2]
            · simp [h1, h2, show ¬(src = dst) from fun hsd => h2 (h1.trans hsd)]
          · by_cases h2 : n.id = dst
            · simp [h1, h2, show ¬(dst = src) from fun hds => h1 (h2.trans hds)]
            · simp [h1, h2]
        rw [hid', hWF.nodeSelf n hn]
        subst hEq
        simp only [Function.comp, Option.map_some]
        by_cases h1 : n.id = src
        · by_cases h2 : n.id = dst
          · simp [h1, h2, h1.symm.trans h2]
          · simp [h1, h2, show ¬(src = dst) from fun hsd => h2 (h1.trans hsd)]
        · by_cases h2 : n.id = dst
          · simp [h1, h2, show ¬(dst = src) from fun hds => h1 (h2.trans hds)]
          · simp [h1, h2]
      · -- outBound
        intro n' hmem eid heid
        rcases hmemNodes n' hmem with ⟨n, hn, _, _, hout⟩
        rcases hout with hsame | ⟨_, hplus⟩
        · rw [hsame] at heid
          exact Nat.lt_succ_of_lt (hWF.outBound n hn eid heid)
        · rw [hplus] at heid
          rcases List.mem_append.mp heid with hold | hnew
          · exact Nat.lt_succ_of_lt (hWF.outBound n hn eid hold)
          · simp only [List.mem_singleton] at hnew
            subst hnew
            exact Nat.lt_succ_self _
      · -- outSrc
        intro n' hmem eid heid e hfe
        rcases hmemNodes n' hmem with ⟨n, hn, hid, _, hout⟩
        rw [hid]
        have hOld : eid ∈ n.outgoing → e.source = n.id := by
          intro hold
          exact hWF.outSrc n hn eid hold e
            (hFindE eid (hWF.outBound n hn eid hold) e hfe)
        rcases hout with hsame | ⟨hsrc, hplus⟩
        · exact hOld (hsame ▸ heid)
        · rw [hplus] at heid
          rcases List.mem_append.mp heid with hold | hnew
          · exact hOld hold
          · simp only [List.mem_singleton] at hnew
            subst hnew
            rw [findEdge_append_none [E] hfreshE, findEdge] at hfe
            rw [if_pos rfl] at hfe
            cases hfe
            exact hsrc.symm
      · -- nodeBound
        intro n' hmem
        rcases hmemNodes n' hmem with ⟨n, hn, hid, _, _⟩
        rw [hid]
        exact hWF.nodeBound n hn
      · -- edgeBound
        intro e he
        rcases List.mem_append.mp he with hold | hnew
        · exact Nat.lt_succ_of_lt (hWF.edgeBound e hold)
        · simp only [List.mem_singleton] at hnew
          subst hnew
          exact Nat.lt_succ_self _
    · -- ArgEdgeInv
      intro e he het
      rcases List.mem_append.mp he with hold | hnew
      · exact hext.types _ _ (hInv e hold het)
      · simp only [List.mem_singleton] at hnew
        subst hnew
        exact hext.types _ _ (hArg het)

theorem wf_spliceOutgoing {s : GraphState} (src : Nat) (es : List EdgeData)
    (hWF : WFState s) (hInv : ArgEdgeInv s) :
    WFState (spliceOutgoing src es s) ∧ ArgEdgeInv (spliceOutgoing src es s) := by
  induction es generalizing s with
  | nil => exact ⟨hWF, hInv⟩
  | cons e rest ih =>
    rw [spliceOutgoing]
    obtain ⟨hWF1, hInv1⟩ := wf_addEdge src e.destination .Child hWF hInv (by simp)
    exact ih hWF1 hInv1

theorem nodeTypeAt_addNodeIsNew_self {s s1 : GraphState} {c nid : Nat}
    {t : NodeType} (hWF : WFState s)
    (h : addNodeIsNew c t s = (nid, true, s1)) : nodeTypeAt s1 nid = some t := by
  obtain ⟨hn, hid, hs⟩ := addNodeIsNew_true h
  subst hs hid
  rw [nodeTypeAt]
  show ((findNode (s.nodes ++ [⟨c, s.NEXT_NODE_ID, t, [], []⟩]) s.NEXT_NODE_ID).map
    fun n => n.type) = some t
  rw [findNode_append_none _
    (findNode_none fun n hmem => Nat.ne_of_lt (hWF.nodeBound n hmem)), findNode]
  simp

theorem inv_mutual (sm : SourceModel) : ∀ fuel,
    InvCE sm fuel ∧ InvDefsLoop sm fuel ∧ InvArgsLoop sm fuel ∧
    InvChildLoop sm fuel ∧ InvRefsLoop sm fuel ∧ InvPD sm fuel ∧
    InvPVD sm fuel ∧ InvPFD sm fuel ∧ InvPA sm fuel := by
  intro fuel
  induction fuel with
  | zero =>
    refine ⟨?_, ?_, ?_, ?_, ?_, ?_, ?_, ?_, ?_⟩
    · intro c s r s' _ _ h; rw [processCallExpression] at h; exact absurd h (by simp)
    · intro src l s s' _ _ h; rw [definitionsLoop] at h; exact absurd h (by simp)
    · intro src l s s' _ _ _ h; rw [argumentsLoop] at h; exact absurd h (by simp)
    · intro src l s s' _ _ h; rw [childCallsLoop] at h; exact absurd h (by simp)
    · intro src l s s' _ _ h; rw [referencesLoop] at h; exact absurd h (by simp)
    · intro d s r s' _ _ h; rw [processDefinition] at h; exact absurd h (by simp)
    · intro d eo s r s' _ _ h; rw [processVariableDeclaration] at h; exact absurd h (by simp)
    · intro d s r s' _ _ h; rw [processFunctionDeclaration] at h; exact absurd h (by simp)
    · intro a s r s' _ _ h; rw [processArgument] at h; exact absurd h (by simp)
  | succ f ih =>
    obtain ⟨ihCE, ihDefs, ihArgs, ihChild, ihRefs, ihPD, ihPVD, ihPFD, ihPA⟩ := ih
    refine ⟨?_, ?_, ?_, ?_, ?_, ?_, ?_, ?_, ?_⟩
    · -- processCallExpression
      intro c s r s' hWF hInv h
      rw [processCallExpression] at h
      rcases hA : addNodeIsNew c NodeType.Call s with ⟨source, b, s1⟩
      rw [hA] at h
      obtain ⟨hWF1, hInv1⟩ := wf_addNodeIsNew hWF hInv hA
      cases b with
      | false =>
        simp only [Except.ok.injEq, Prod.mk.injEq] at h
        rw [← h.2]
        exact ⟨hWF1, hInv1⟩
      | true =>
        simp only [] at h
        have htype1 : nodeTypeAt s1 source = some NodeType.Call :=
          nodeTypeAt_addNodeIsNew_self hWF hA
        rcases h2 : (if sm.kind (sm.getExpression c) = SyntaxKind.Identifier then
              definitionsLoop sm f source (sm.getDefinitionNodes (sm.getExpression c)) s1
            else .ok s1) with e | s2
        · rw [h2] at h; simp at h
        · rw [h2] at h
          simp only [] at h
          have step2 : (WFState s2 ∧ ArgEdgeInv s2) ∧ Extends s1 s2 := by
            by_cases hk : sm.kind (sm.getExpression c) = SyntaxKind.Identifier
            · rw [if_pos hk] at h2
              exact ⟨ihDefs _ _ _ _ hWF1 hInv1 h2, (extends_mutual sm f).2.1 _ _ _ _ h2⟩
            · rw [if_neg hk] at h2
              simp only [Except.ok.injEq] at h2
              rw [← h2]
              exact ⟨⟨hWF1, hInv1⟩, Extends.rfl⟩
          rcases h3 : argumentsLoop sm f source (sm.getArguments c) s2 with e | s3
          · rw [h3] at h; simp at h
          · rw [h3] at h
            simp only [Except.ok.injEq, Prod.mk.injEq] at h
            rw [← h.2]
            exact ihArgs _ _ _ _ step2.1.1 step2.1.2
              (step2.2.types _ _ htype1) h3
    · -- definitionsLoop
      intro src l s s' hWF hInv h
      cases l with
      | nil =>
        rw [definitionsLoop] at h
        simp only [Except.ok.injEq] at h
        rw [← h]; exact ⟨hWF, hInv⟩
      | cons d rest =>
        rw [definitionsLoop] at h
        rcases h1 : processDefinition sm f d s with e | ⟨dr, s1⟩
        · rw [h1] at h; simp at h
        · rw [h1] at h
          cases dr with
          | none => simp at h
          | some dnid =>
            simp only [] at h
            obtain ⟨hWF1, hInv1⟩ := ihPD _ _ _ _ hWF hInv h1
            obtain ⟨hWF2, hInv2⟩ :=
              wf_spliceOutgoing src (outgoingEdges s1 dnid) hWF1 hInv1
            exact ihDefs _ _ _ _ hWF2 hInv2 h
    · -- argumentsLoop
      intro src l s s' hWF hInv htype h
      cases l with
      | nil =>
        rw [argumentsLoop] at h
        simp only [Except.ok.injEq] at h
        rw [← h]; exact ⟨hWF, hInv⟩
      | cons a rest =>
        rw [argumentsLoop] at h
        rcases h1 : processArgument sm f a s with e | ⟨ar, s1⟩
        · rw [h1] at h; simp at h
        · rw [h1] at h
          simp only [] at h
          obtain ⟨hWF1, hInv1⟩ := ihPA _ _ _ _ hWF hInv h1
          have htype1 : nodeTypeAt s1 src = some NodeType.Call :=
            ((extends_mutual sm f).2.2.2.2.2.2.2.2 _ _ _ _ h1).types _ _ htype
          obtain ⟨hWF2, hInv2⟩ := wf_addEdge src ar .Argument hWF1 hInv1
            (fun _ => htype1)
          have htype2 : nodeTypeAt (addEdge src ar .Argument s1).2 src =
              some NodeType.Call :=
            (extends_addEdge src ar .Argument).types _ _ htype1
          exact ihArgs _ _ _ _ hWF2 hInv2 htype2 h
    · -- childCallsLoop
      intro src l s s' hWF hInv h
      cases l with
      | nil =>
        rw [childCallsLoop] at h
        simp only [Except.ok.injEq] at h
        rw [← h]; exact ⟨hWF, hInv⟩
      | cons call rest =>
        rw [childCallsLoop] at h
        rcases h1 : processCallExpression sm f call s with e | ⟨cr, s1⟩
        · rw [h1] at h; simp at h
        · rw [h1] at h
          simp only [] at h
          obtain ⟨hWF1, hInv1⟩ := ihCE _ _ _ _ hWF hInv h1
          obtain ⟨hWF2, hInv2⟩ := wf_addEdge src cr .Child hWF1 hInv1 (by simp)
          exact ihChild _ _ _ _ hWF2 hInv2 h
    · -- referencesLoop
      intro src l s s' hWF hInv h
      cases l with
      | nil =>
        rw [referencesLoop] at h
        simp only [Except.ok.injEq] at h
        rw [← h]; exact ⟨hWF, hInv⟩
      | cons rf rest =>
        rw [referencesLoop] at h
        cases hp1 : sm.parent rf with
        | none => rw [hp1] at h; simp at h
        | some temp =>
          rw [hp1] at h
          simp only [] at h
          cases hp2 : sm.parent temp with
          | none => rw [hp2] at h; simp at h
          | some call =>
            rw [hp2] at h
            simp only [] at h
            by_cases hc : sm.kind call = SyntaxKind.CallExpression ∧
                sm.getExpression call = temp
            · rw [if_pos hc] at h
              rcases h1 : processCallExpression sm f call s with e | ⟨cr, s1⟩
              · rw [h1] at h; simp at h
              · rw [h1] at h
                simp only [] at h
                obtain ⟨hWF1, hInv1⟩ := ihCE _ _ _ _ hWF hInv h1
                obtain ⟨hWF2, hInv2⟩ := wf_addEdge src cr .Call hWF1 hInv1 (by simp)
                exact ihRefs _ _ _ _ hWF2 hInv2 h
            · rw [if_neg hc] at h
              exact ihRefs _ _ _ _ hWF hInv h
    · -- processDefinition
      intro d s r s' hWF hInv h
      rw [processDefinition] at h
      by_cases h1 : sm.kind d = SyntaxKind.VariableDeclaration
      · rw [if_pos h1] at h
        exact ihPVD _ _ _ _ _ hWF hInv h
      · rw [if_neg h1] at h
        by_cases h2 : sm.kind d = SyntaxKind.FunctionDeclaration
        · rw [if_pos h2] at h
          rcases h3 : processFunctionDeclaration sm f d s with e | ⟨fr, s1⟩
          · rw [h3] at h; simp at h
          · rw [h3] at h
            simp only [Except.ok.injEq, Prod.mk.injEq] at h
            rw [← h.2]
            exact ihPFD _ _ _ _ hWF hInv h3
        · rw [if_neg h2] at h
          simp only [Except.ok.injEq, Prod.mk.injEq] at h
          rw [← h.2, addNode]
          rcases hA : addNodeIsNew d NodeType.Any s with ⟨nid, b, s1⟩
          exact wf_addNodeIsNew hWF hInv hA
    · -- processVariableDeclaration
      intro d eo s r s' hWF hInv h
      rw [processVariableDeclaration] at h
      by_cases h1 : (eo && !sm.isExported d) = true
      · rw [if_pos h1] at h
        simp only [Except.ok.injEq, Prod.mk.injEq] at h
        rw [← h.2]; exact ⟨hWF, hInv⟩
      · rw [if_neg h1] at h
        cases hi : sm.getInitializer d with
        | none => rw [hi] at h; simp at h
        | some init =>
          rw [hi] at h
          simp only [] at h
          rcases hA : addNodeIsNew d
              (if sm.kind init = SyntaxKind.ArrowFunction ∨
                  sm.kind init = SyntaxKind.FunctionExpression
               then NodeType.Function else NodeType.Object) s with ⟨source, b, s1⟩
          rw [hA] at h
          obtain ⟨hWF1, hInv1⟩ := wf_addNodeIsNew hWF hInv hA
          cases b with
          | false =>
            simp only [Except.ok.injEq, Prod.mk.injEq] at h
            rw [← h.2]
            exact ⟨hWF1, hInv1⟩
          | true =>
            simp only [] at h
            by_cases hk : sm.kind init = SyntaxKind.ArrowFunction ∨
                sm.kind init = SyntaxKind.FunctionExpression
            · rw [if_pos hk] at h
              cases hb : sm.getBody init with
              | none => rw [hb] at h; simp at h
              | some bd =>
                rw [hb] at h
                simp only [] at h
                rcases h3 : childCallsLoop sm f source (sm.descendantCalls bd) s1
                    with e | s2
                · rw [h3] at h; simp at h
                · rw [h3] at h
                  simp only [Except.ok.injEq, Prod.mk.injEq] at h
                  rw [← h.2]
                  exact ihChild _ _ _ _ hWF1 hInv1 h3
            · rw [if_neg hk] at h
              rcases h3 : referencesLoop sm f source (sm.findReferences d) s1
                  with e | s2
              · rw [h3] at h; simp at h
              · rw [h3] at h
                simp only [Except.ok.injEq, Prod.mk.injEq] at h
                rw [← h.2]
                exact ihRefs _ _ _ _ hWF1 hInv1 h3
    · -- processFunctionDeclaration
      intro d s r s' hWF hInv h
      rw [processFunctionDeclaration] at h
      rcases hA : addNodeIsNew d NodeType.Function s with ⟨source, b, s1⟩
      rw [hA] at h
      obtain ⟨hWF1, hInv1⟩ := wf_addNodeIsNew hWF hInv hA
      cases b with
      | false =>
        simp only [Except.ok.injEq, Prod.mk.injEq] at h
        rw [← h.2]
        exact ⟨hWF1, hInv1⟩
      | true =>
        simp only [] at h
        cases hb : sm.getBody d with
        | none => rw [hb] at h; simp at h
        | some bd =>
          rw [hb] at h
          simp only [] at h
          rcases h3 : childCallsLoop sm f source (sm.descendantCalls bd) s1 with e | s2
          · rw [h3] at h; simp at h
          · rw [h3] at h
            simp only [Except.ok.injEq, Prod.mk.injEq] at h
            rw [← h.2]
            exact ihChild _ _ _ _ hWF1 hInv1 h3
    · -- processArgument
      intro a s r s' hWF hInv h
      rw [processArgument] at h
      rcases hA : addNodeIsNew a NodeType.Argument s with ⟨source, b, s1⟩
      rw [hA] at h
      obtain ⟨hWF1, hInv1⟩ := wf_addNodeIsNew hWF hInv hA
      cases b with
      | false =>
        simp only [Except.ok.injEq, Prod.mk.injEq] at h
        rw [← h.2]
        exact ⟨hWF1, hInv1⟩
      | true =>
        simp only [] at h
        rcases h3 : childCallsLoop sm f source (sm.descendantCalls a) s1 with e | s2
        · rw [h3] at h; simp at h
        · rw [h3] at h
          simp only [Except.ok.injEq, Prod.mk.injEq] at h
          rw [← h.2]
          exact ihChild _ _ _ _ hWF1 hInv1 h3

theorem inv_processMethodDeclaration {sm : SourceModel} {fuel : Nat}
    {m : Nat} {s : GraphState} {r : Nat} {s' : GraphState}
    (hWF : WFState s) (hInv : ArgEdgeInv s)
    (h : processMethodDeclaration sm fuel m s = .ok (r, s')) :
    WFState s' ∧ ArgEdgeInv s' := by
  cases fuel with
  | zero => rw [processMethodDeclaration] at h; exact absurd h (by simp)
  | succ f =>
    rw [processMethodDeclaration] at h
    rcases hA : addNodeIsNew m NodeType.Function s with ⟨source, b, s1⟩
    rw [hA] at h
    obtain ⟨hWF1, hInv1⟩ := wf_addNodeIsNew hWF hInv hA
    cases b with
    | false =>
      simp only [Except.ok.injEq, Prod.mk.injEq] at h
      rw [← h.2]
      exact ⟨hWF1, hInv1⟩
    | true =>
      simp only [] at h
      cases hb : sm.getBody m with
      | none => rw [hb] at h; simp at h
      | some bd =>
        rw [hb] at h
        simp only [] at h
        rcases h3 : childCallsLoop sm f source (sm.descendantCalls bd) s1 with e | s2
        · rw [h3] at h; simp at h
        · rw [h3] at h
          simp only [Except.ok.injEq, Prod.mk.injEq] at h
          rw [← h.2]
          exact (inv_mutual sm f).2.2.2.1 _ _ _ _ hWF1 hInv1 h3

theorem inv_declarationsLoop {sm : SourceModel} {fuel : Nat}
    {l : List Nat} {s s' : GraphState} (hWF : WFState s) (hInv : ArgEdgeInv s)
    (h : declarationsLoop sm fuel l s = .ok s') : WFState s' ∧ ArgEdgeInv s' := by
  induction l generalizing s with
  | nil =>
    rw [declarationsLoop] at h
    simp only [Except.ok.injEq] at h
    rw [← h]; exact ⟨hWF, hInv⟩
  | cons d rest ih =>
    rw [declarationsLoop] at h
    rcases h1 : processVariableDeclaration sm fuel d true s with e | ⟨r, s1⟩
    · rw [h1] at h; simp at h
    · rw [h1] at h
      simp only [] at h
      obtain ⟨hWF1, hInv1⟩ :=
        (inv_mutual sm fuel).2.2.2.2.2.2.1 _ _ _ _ _ hWF hInv h1
      exact ih hWF1 hInv1 h

theorem inv_variablesLoop {sm : SourceModel} {fuel : Nat}
    {l : List Nat} {s s' : GraphState} (hWF : WFState s) (hInv : ArgEdgeInv s)
    (h : variablesLoop sm fuel l s = .ok s') : WFState s' ∧ ArgEdgeInv s' := by
  induction l generalizing s with
  | nil =>
    rw [variablesLoop] at h
    simp only [Except.ok.injEq] at h
    rw [← h]; exact ⟨hWF, hInv⟩
  | cons v rest ih =>
    rw [variablesLoop] at h
    cases hst : sm.varStatement v with
    | none => rw [hst] at h; simp at h
    | some stmt =>
      rw [hst] at h
      simp only [] at h
      rcases h1 : declarationsLoop sm fuel (sm.stmtDeclarations stmt) s with e | s1
      · rw [h1] at h; simp at h
      · rw [h1] at h
        simp only [] at h
        obtain ⟨hWF1, hInv1⟩ := inv_declarationsLoop hWF hInv h1
        exact ih hWF1 hInv1 h

theorem inv_functionsLoop {sm : SourceModel} {fuel : Nat}
    {l : List Nat} {s s' : GraphState} (hWF : WFState s) (hInv : ArgEdgeInv s)
    (h : functionsLoop sm fuel l s = .ok s') : WFState s' ∧ ArgEdgeInv s' := by
  induction l generalizing s with
  | nil =>
    rw [functionsLoop] at h
    simp only [Except.ok.injEq] at h
    rw [← h]; exact ⟨hWF, hInv⟩
  | cons fn rest ih =>
    rw [functionsLoop] at h
    rcases h1 : processFunctionDeclaration sm fuel fn s with e | ⟨r, s1⟩
    · rw [h1] at h; simp at h
    · rw [h1] at h
      simp only [] at h
      obtain ⟨hWF1, hInv1⟩ :=
        (inv_mutual sm fuel).2.2.2.2.2.2.2.1 _ _ _ _ hWF hInv h1
      exact ih hWF1 hInv1 h

theorem inv_methodsLoop {sm : SourceModel} {fuel : Nat}
    {l : List Nat} {s s' : GraphState} (hWF : WFState s) (hInv : ArgEdgeInv s)
    (h : methodsLoop sm fuel l s = .ok s') : WFState s' ∧ ArgEdgeInv s' := by
  induction l generalizing s with
  | nil =>
    rw [methodsLoop] at h
    simp only [Except.ok.injEq] at h
    rw [← h]; exact ⟨hWF, hInv⟩
  | cons m rest ih =>
    rw [methodsLoop] at h
    rcases h1 : processMethodDeclaration sm fuel m s with e | ⟨r, s1⟩
    · rw [h1] at h; simp at h
    · rw [h1] at h
      simp only [] at h
      obtain ⟨hWF1, hInv1⟩ := inv_processMethodDeclaration hWF hInv h1
      exact ih hWF1 hInv1 h

theorem inv_classesLoop {sm : SourceModel} {fuel : Nat}
    {l : List Nat} {s s' : GraphState} (hWF : WFState s) (hInv : ArgEdgeInv s)
    (h : classesLoop sm fuel l s = .ok s') : WFState s' ∧ ArgEdgeInv s' := by
  induction l generalizing s with
  | nil =>
    rw [classesLoop] at h
    simp only [Except.ok.injEq] at h
    rw [← h]; exact ⟨hWF, hInv⟩
  | cons c rest ih =>
    rw [classesLoop] at h
    rcases h1 : processClass sm fuel c s with e | s1
    · rw [h1] at h; simp at h
    · rw [h1] at h
      simp only [] at h
      rw [processClass] at h1
      obtain ⟨hWF1, hInv1⟩ := inv_methodsLoop hWF hInv h1
      exact ih hWF1 hInv1 h

theorem inv_filesLoop {sm : SourceModel} {fuel : Nat}
    {l : List Nat} {s s' : GraphState} (hWF : WFState s) (hInv : ArgEdgeInv s)
    (h : filesLoop sm fuel l s = .ok s') : WFState s' ∧ ArgEdgeInv s' := by
  induction l generalizing s with
  | nil =>
    rw [filesLoop] at h
    simp only [Except.ok.injEq] at h
    rw [← h]; exact ⟨hWF, hInv⟩
  | cons file rest ih =>
    rw [filesLoop] at h
    rcases h1 : processFile sm fuel file s with e | s1
    · rw [h1] at h; simp at h
    · rw [h1] at h
      simp only [] at h
      rw [processFile] at h1
      rcases h2 : processVariables sm fuel file s with e | sv
      · rw [h2] at h1; simp at h1
      · rw [h2] at h1
        simp only [] at h1
        rcases h3 : processFunctions sm fuel file sv with e | sf
        · rw [h3] at h1; simp at h1
        · rw [h3] at h1
          simp only [] at h1
          rw [processVariables] at h2
          rw [processFunctions] at h3
          rw [processClasses] at h1
          obtain ⟨hWFv, hInvv⟩ := inv_variablesLoop hWF hInv h2
          obtain ⟨hWFf, hInvf⟩ := inv_functionsLoop hWFv hInvv h3
          obtain ⟨hWFc, hInvc⟩ := inv_classesLoop hWFf hInvf h1
          exact ih hWFc hInvc h

theorem inv_buildGraph {sm : SourceModel} {fuel : Nat} {s' : GraphState}
    (h : buildGraph sm fuel = .ok s') : WFState s' ∧ ArgEdgeInv s' := by
  rw [buildGraph] at h
  exact inv_filesLoop wfState_empty argEdgeInv_empty h

theorem outgoingFilter_ok_of {nt : NodeType} {es : List EdgeData}
    (h : ∀ e ∈ es, e.type = EdgeType.Argument → nt = NodeType.Call) :
    ∃ ids, outgoingFilter nt es = .ok ids := by
  induction es with
  | nil => exact ⟨[], rfl⟩
  | cons e rest ih =>
    obtain ⟨ids, hids⟩ := ih fun e' he' => h e' (List.mem_cons_of_mem _ he')
    rw [outgoingFilter]
    rw [if_neg (fun hcon =>
      hcon.2 (h e (List.mem_cons_self _ _) hcon.1)), hids]
    exact ⟨_, rfl⟩

theorem outgoingEdges_arg_call {s : GraphState} (hWF : WFState s)
    (hInv : ArgEdgeInv s) {n : NodeData} (hn : n ∈ s.nodes) :
    ∀ e ∈ outgoingEdges s n.id, e.type = EdgeType.Argument →
      n.type = NodeType.Call := by
  intro e he het
  rw [outgoingEdges, hWF.nodeSelf n hn] at he
  rcases List.mem_filterMap.mp he with ⟨eid, heid, hfe⟩
  have hmemE : e ∈ s.edges := (findEdge_mem hfe).1
  have hsrc : e.source = n.id := hWF.outSrc n hn eid heid e hfe
  have := hInv e hmemE het
  rw [hsrc, nodeTypeAt, hWF.nodeSelf n hn] at this
  simp at this
  exact this

theorem nodeDataJSON_no_integrity (sm : SourceModel) (s : GraphState)
    (n : NodeData) : nodeDataJSON sm s n ≠ .error .integrityError := by
  rw [nodeDataJSON]
  cases n.type with
  | Function => cases sm.symbolName n.construct <;> simp
  | Call => simp
  | Argument => simp
  | Object => cases sm.symbolName n.construct <;> simp
  | Any => simp

theorem nodeToJSON_no_integrity {sm : SourceModel} {s : GraphState}
    (hWF : WFState s) (hInv : ArgEdgeInv s) {n : NodeData} (hn : n ∈ s.nodes) :
    nodeToJSON sm s n ≠ .error .integrityError := by
  rw [nodeToJSON]
  cases hD : nodeDataJSON sm s n with
  | error e =>
    intro hcon
    simp only [Except.error.injEq] at hcon
    exact nodeDataJSON_no_integrity sm s n (by rw [hD, hcon])
  | ok nd =>
    obtain ⟨ids, hids⟩ := outgoingFilter_ok_of
      (outgoingEdges_arg_call hWF hInv hn)
    rw [hids]
    simp

theorem nodesToJSONLoop_no_integrity {sm : SourceModel} {s : GraphState}
    (hWF : WFState s) (hInv : ArgEdgeInv s) :
    ∀ l : List NodeData, (∀ n ∈ l, n ∈ s.nodes) →
      nodesToJSONLoop sm s l ≠ .error .integrityError := by
  intro l
  induction l with
  | nil => intro _; rw [nodesToJSONLoop]; simp
  | cons n rest ih =>
    intro hsub
    rw [nodesToJSONLoop]
    cases hN : nodeToJSON sm s n with
    | error e =>
      intro hcon
      simp only [Except.error.injEq] at hcon
      exact nodeToJSON_no_integrity hWF hInv (hsub n (List.mem_cons_self _ _))
        (by rw [hN, hcon])
    | ok j =>
      cases hR : nodesToJSONLoop sm s rest with
      | error e =>
        intro hcon
        simp only [Except.error.injEq] at hcon
        exact ih (fun n' hn' => hsub n' (List.mem_cons_of_mem _ hn')) (by rw [hR, hcon])
      | ok js => simp

/-- Claim C4 — the Argument-edge type invariant: in every graph the builder
returns, every `Argument`-typed edge has a `Call`-typed source node, and
consequently the serializer's fatal integrity check (the throw inside the
outgoing-edge filter of `nodesToJSON`) can never fire on a builder-produced
graph — `nodesToJSON` never returns the `integrityError`. -/
theorem argument_edge_invariant (sm : SourceModel) (fuel : Nat)
    (s' : GraphState) (h : buildGraph sm fuel = .ok s') :
    (∀ e ∈ s'.edges, e.type = EdgeType.Argument →
      nodeTypeAt s' e.source = some NodeType.Call) ∧
    nodesToJSON sm s' ≠ .error .integrityError := by
  obtain ⟨hWF, hInv⟩ := inv_buildGraph h
  refine ⟨hInv, ?_⟩
  rw [nodesToJSON]
  exact nodesToJSONLoop_no_integrity hWF hInv s'.nodes fun n hn => hn

/-- Witness for `argument_edge_invariant` on the Scenario A build. -/
theorem argument_edge_invariant_witness :
    (∀ e ∈ builtA.edges, e.type = EdgeType.Argument →
      nodeTypeAt builtA e.source = some NodeType.Call) ∧
    nodesToJSON smA builtA ≠ .error .integrityError :=
  argument_edge_invariant smA 30 builtA (by decide)

theorem potential_le (sm : SourceModel) (U : List Nat) {s s' : GraphState}
    (h : ∀ x v, lookupConstruct s x = some v → lookupConstruct s' x = some v) :
    potential sm U s' ≤ potential sm U s := by
  induction U with
  | nil => exact Nat.le_refl _
  | cons c rest ih =>
    rw [potential, potential]
    have hstep : (if lookupConstruct s' c = none then unregWeight sm c else 0) ≤
        (if lookupConstruct s c = none then unregWeight sm c else 0) := by
      cases hl : lookupConstruct s c with
      | none =>
        by_cases hl' : lookupConstruct s' c = none <;> simp [hl']
      | some v => simp [hl, h c v hl]
    omega

theorem lookupConstruct_addNodeIsNew_other {s s1 : GraphState} {c nid x : Nat}
    {t : NodeType} (h : addNodeIsNew c t s = (nid, true, s1)) (hx : x ≠ c) :
    lookupConstruct s1 x = lookupConstruct s x := by
  obtain ⟨hn, hid, hs⟩ := addNodeIsNew_true h
  subst hs
  show assocLookup (s.nodeToInfo ++ [(c, s.NEXT_NODE_ID)]) x = _
  cases hl : lookupConstruct s x with
  | some v => exact assocLookup_append_some hl
  | none =>
    rw [assocLookup_append_none _ hl, assocLookup,
      if_neg (fun hcx : c = x => hx hcx.symm)]
    rfl

theorem potential_addNodeIsNew_drop {sm : SourceModel} {U : List Nat}
    {s s1 : GraphState} {c nid : Nat} {t : NodeType} (hcU : c ∈ U)
    (h : addNodeIsNew c t s = (nid, true, s1)) :
    potential sm U s1 + unregWeight sm c ≤ potential sm U s := by
  have hnone : lookupConstruct s c = none := (addNodeIsNew_true h).1
  have hsome : lookupConstruct s1 c = some nid := lookupConstruct_addNodeIsNew_self h
  have hext : ∀ x v, lookupConstruct s x = some v → lookupConstruct s1 x = some v :=
    (extends_addNodeIsNew h).registry
  induction U with
  | nil => simp at hcU
  | cons u rest ih =>
    rw [potential, potential]
    by_cases hu : u = c
    · subst hu
      rw [if_pos hnone, if_neg (by rw [hsome]; simp)]
      have := potential_le sm rest hext
      omega
    · rw [lookupConstruct_addNodeIsNew_other h hu]
      rcases List.mem_cons.mp hcU with heq | hrest
      · exact absurd heq.symm hu
      · have := ih hrest
        omega

theorem term_mutual (sm : SourceModel) (U : List Nat) (hC : Closed sm U) :
    ∀ fuel, TermCE sm U fuel ∧ TermDefsLoop sm U fuel ∧ TermArgsLoop sm U fuel ∧
      TermChildLoop sm U fuel ∧ TermRefsLoop sm U fuel ∧ TermPD sm U fuel ∧
      TermPVD sm U fuel ∧ TermPFD sm U fuel ∧ TermPA sm U fuel := by
  intro fuel
  induction fuel with
  | zero =>
    refine ⟨?_, ?_, ?_, ?_, ?_, ?_, ?_, ?_, ?_⟩ <;>
      (intro c s hmem hf; omega)
  | succ f ih =>
    obtain ⟨ihCE, ihDefs, ihArgs, ihChild, ihRefs, ihPD, ihPVD, ihPFD, ihPA⟩ := ih
    refine ⟨?_, ?_, ?_, ?_, ?_, ?_, ?_, ?_, ?_⟩
    · -- processCallExpression
      intro c s hcU hfuel
      rw [processCallExpression]
      rcases hA : addNodeIsNew c NodeType.Call s with ⟨source, b, s1⟩
      cases b with
      | false => simp
      | true =>
        simp only []
        have hdrop : potential sm U s1 + unregWeight sm c ≤ potential sm U s :=
          potential_addNodeIsNew_drop hcU hA
        have hwge : 1 + (sm.getDefinitionNodes (sm.getExpression c)).length +
            (sm.getArguments c).length ≤ unregWeight sm c := by
          rw [unregWeight]; omega
        rcases h2 : (if sm.kind (sm.getExpression c) = SyntaxKind.Identifier then
              definitionsLoop sm f source (sm.getDefinitionNodes (sm.getExpression c)) s1
            else .ok s1) with e | s2
        · by_cases hk : sm.kind (sm.getExpression c) = SyntaxKind.Identifier
          · rw [if_pos hk] at h2
            have hne := ihDefs source (sm.getDefinitionNodes (sm.getExpression c)) s1
              (hC.defNodes c hcU) (by omega)
            rw [h2] at hne
            simpa using hne
          · rw [if_neg hk] at h2
            exact absurd h2 (by simp)
        · simp only []
          have hext2 : Extends s1 s2 := by
            by_cases hk : sm.kind (sm.getExpression c) = SyntaxKind.Identifier
            · rw [if_pos hk] at h2
              exact (extends_mutual sm f).2.1 _ _ _ _ h2
            · rw [if_neg hk] at h2
              simp only [Except.ok.injEq] at h2
              rw [← h2]; exact Extends.rfl
          have hpot2 : potential sm U s2 ≤ potential sm U s1 :=
            potential_le sm U hext2.registry
          rcases h3 : argumentsLoop sm f source (sm.getArguments c) s2 with e | s3
          · have hne := ihArgs source (sm.getArguments c) s2
              (hC.args c hcU) (by omega)
            rw [h3] at hne
            simpa using hne
          · simp
    · -- definitionsLoop
      intro src l s hlU hfuel
      cases l with
      | nil => rw [definitionsLoop]; simp
      | cons d rest =>
        rw [definitionsLoop]
        rcases h1 : processDefinition sm f d s with e | ⟨dr, s1⟩
        · have hne := ihPD d s (hlU d (List.mem_cons_self _ _))
            (by simp only [List.length_cons] at hfuel; omega)
          rw [h1] at hne
          simpa using hne
        · cases dr with
          | none => simp
          | some dnid =>
            simp only []
            have hext1 : Extends s s1 := (extends_mutual sm f).2.2.2.2.2.1 _ _ _ _ h1
            have hext2 : Extends s1 (spliceOutgoing src (outgoingEdges s1 dnid) s1) :=
              extends_spliceOutgoing _ _ _
            have hpot : potential sm U
                (spliceOutgoing src (outgoingEdges s1 dnid) s1) ≤ potential sm U s :=
              Nat.le_trans (potential_le sm U hext2.registry) (potential_le sm U hext1.registry)
            exact ihDefs src rest _ (fun d' hd' => hlU d' (List.mem_cons_of_mem _ hd'))
              (by simp only [List.length_cons] at hfuel; omega)
    · -- argumentsLoop
      intro src l s hlU hfuel
      cases l with
      | nil => rw [argumentsLoop]; simp
      | cons a rest =>
        rw [argumentsLoop]
        rcases h1 : processArgument sm f a s with e | ⟨ar, s1⟩
        · have hne := ihPA a s (hlU a (List.mem_cons_self _ _))
            (by simp only [List.length_cons] at hfuel; omega)
          rw [h1] at hne
          simpa using hne
        · simp only []
          have hext1 : Extends s s1 := (extends_mutual sm f).2.2.2.2.2.2.2.2 _ _ _ _ h1
          have hext2 : Extends s1 (addEdge src ar .Argument s1).2 :=
            extends_addEdge _ _ _
          have hpot : potential sm U (addEdge src ar .Argument s1).2 ≤
              potential sm U s :=
            Nat.le_trans (potential_le sm U hext2.registry) (potential_le sm U hext1.registry)
          exact ihArgs src rest _ (fun a' ha' => hlU a' (List.mem_cons_of_mem _ ha'))
            (by simp only [List.length_cons] at hfuel; omega)
    · -- childCallsLoop
      intro src l s hlU hfuel
      cases l with
      | nil => rw [childCallsLoop]; simp
      | cons call rest =>
        rw [childCallsLoop]
        rcases h1 : processCallExpression sm f call s with e | ⟨cr, s1⟩
        · have hne := ihCE call s (hlU call (List.mem_cons_self _ _))
            (by simp only [List.length_cons] at hfuel; omega)
          rw [h1] at hne
          simpa using hne
        · simp only []
          have hext1 : Extends s s1 := (extends_mutual sm f).1 _ _ _ _ h1
          have hext2 : Extends s1 (addEdge src cr .Child s1).2 := extends_addEdge _ _ _
          have hpot : potential sm U (addEdge src cr .Child s1).2 ≤
              potential sm U s :=
            Nat.le_trans (potential_le sm U hext2.registry) (potential_le sm U hext1.registry)
          exact ihChild src rest _ (fun k hk => hlU k (List.mem_cons_of_mem _ hk))
            (by simp only [List.length_cons] at hfuel; omega)
    · -- referencesLoop
      intro src l s hlU hfuel
      cases l with
      | nil => rw [referencesLoop]; simp
      | cons rf rest =>
        rw [referencesLoop]
        cases hp1 : sm.parent rf with
        | none => simp
        | some temp =>
          simp only []
          cases hp2 : sm.parent temp with
          | none => simp
          | some call =>
            simp only []
            by_cases hc : sm.kind call = SyntaxKind.CallExpression ∧
                sm.getExpression call = temp
            · rw [if_pos hc]
              have hcallU : call ∈ U :=
                hlU rf (List.mem_cons_self _ _) temp hp1 call hp2 hc.1
              rcases h1 : processCallExpression sm f call s with e | ⟨cr, s1⟩
              · have hne := ihCE call s hcallU
                  (by simp only [List.length_cons] at hfuel; omega)
                rw [h1] at hne
                simpa using hne
              · simp only []
                have hext1 : Extends s s1 := (extends_mutual sm f).1 _ _ _ _ h1
                have hext2 : Extends s1 (addEdge src cr .Call s1).2 :=
                  extends_addEdge _ _ _
                have hpot : potential sm U (addEdge src cr .Call s1).2 ≤
                    potential sm U s :=
                  Nat.le_trans (potential_le sm U hext2.registry)
                    (potential_le sm U hext1.registry)
                exact ihRefs src rest _
                  (fun r' hr' => hlU r' (List.mem_cons_of_mem _ hr'))
                  (by simp only [List.length_cons] at hfuel; omega)
            · rw [if_neg hc]
              exact ihRefs src rest s
                (fun r' hr' => hlU r' (List.mem_cons_of_mem _ hr'))
                (by simp only [List.length_cons] at hfuel; omega)
    · -- processDefinition
      intro d s hdU hfuel
      rw [processDefinition]
      by_cases h1 : sm.kind d = SyntaxKind.VariableDeclaration
      · rw [if_pos h1]
        exact ihPVD d true s hdU (by omega)
      · rw [if_neg h1]
        by_cases h2 : sm.kind d = SyntaxKind.FunctionDeclaration
        · rw [if_pos h2]
          rcases h3 : processFunctionDeclaration sm f d s with e | ⟨fr, s1⟩
          · have hne := ihPFD d s hdU (by omega)
            rw [h3] at hne
            simpa using hne
          · simp
        · rw [if_neg h2]
          simp
    · -- processVariableDeclaration
      intro d eo s hdU hfuel
      rw [processVariableDeclaration]
      by_cases h1 : (eo && !sm.isExported d) = true
      · rw [if_pos h1]; simp
      · rw [if_neg h1]
        cases hi : sm.getInitializer d with
        | none => simp
        | some init =>
          simp only []
          rcases hA : addNodeIsNew d
              (if sm.kind init = SyntaxKind.ArrowFunction ∨
                  sm.kind init = SyntaxKind.FunctionExpression
               then NodeType.Function else NodeType.Object) s with ⟨source, b, s1⟩
          cases b with
          | false => simp
          | true =>
            simp only []
            have hdrop : potential sm U s1 + unregWeight sm d ≤ potential sm U s :=
              potential_addNodeIsNew_drop hdU hA
            by_cases hk : sm.kind init = SyntaxKind.ArrowFunction ∨
                sm.kind init = SyntaxKind.FunctionExpression
            · rw [if_pos hk]
              cases hb : sm.getBody init with
              | none => simp
              | some bd =>
                simp only []
                have hwge : 1 + (sm.descendantCalls bd).length ≤ unregWeight sm d := by
                  rw [unregWeight, hi]
                  simp only []
                  rw [hb]
                  simp only []
                  omega
                rcases h3 : childCallsLoop sm f source (sm.descendantCalls bd) s1
                    with e | s2
                · have hne := ihChild source (sm.descendantCalls bd) s1
                    (hC.initBodyCalls d hdU init hi bd hb) (by omega)
                  rw [h3] at hne
                  simpa using hne
                · simp
            · rw [if_neg hk]
              have hwge : 1 + (sm.findReferences d).length ≤ unregWeight sm d := by
                rw [unregWeight]; omega
              rcases h3 : referencesLoop sm f source (sm.findReferences d) s1
                  with e | s2
              · have hne := ihRefs source (sm.findReferences d) s1
                  (fun r hr => hC.refCalls d hdU r hr) (by omega)
                rw [h3] at hne
                simpa using hne
              · simp
    · -- processFunctionDeclaration
      intro d s hdU hfuel
      rw [processFunctionDeclaration]
      rcases hA : addNodeIsNew d NodeType.Function s with ⟨source, b, s1⟩
      cases b with
      | false => simp
      | true =>
        simp only []
        cases hb : sm.getBody d with
        | none => simp
        | some bd =>
          simp only []
          have hdrop : potential sm U s1 + unregWeight sm d ≤ potential sm U s :=
            potential_addNodeIsNew_drop hdU hA
          have hwge : 1 + (sm.descendantCalls bd).length ≤ unregWeight sm d := by
            rw [unregWeight, hb]
            simp only []
            omega
          rcases h3 : childCallsLoop sm f source (sm.descendantCalls bd) s1 with e | s2
          · have hne := ihChild source (sm.descendantCalls bd) s1
              (hC.bodyCalls d hdU bd hb) (by omega)
            rw [h3] at hne
            simpa using hne
          · simp
    · -- processArgument
      intro a s haU hfuel
      rw [processArgument]
      rcases hA : addNodeIsNew a NodeType.Argument s with ⟨source, b, s1⟩
      cases b with
      | false => simp
      | true =>
        simp only []
        have hdrop : potential sm U s1 + unregWeight sm a ≤ potential sm U s :=
          potential_addNodeIsNew_drop haU hA
        have hwge : 1 + (sm.descendantCalls a).length ≤ unregWeight sm a := by
          rw [unregWeight]; omega
        rcases h3 : childCallsLoop sm f source (sm.descendantCalls a) s1 with e | s2
        · have hne := ihChild source (sm.descendantCalls a) s1
            (hC.descCalls a haU) (by omega)
          rw [h3] at hne
          simpa using hne
        · simp

theorem term_processMethodDeclaration (sm : SourceModel) (U : List Nat)
    (hC : Closed sm U) : ∀ fuel m s, m ∈ U →
    2 * potential sm U s + 2 ≤ fuel →
    processMethodDeclaration sm fuel m s ≠ .error .fuelExhausted := by
  intro fuel m s hmU hfuel
  cases fuel with
  | zero => omega
  | succ f =>
    rw [processMethodDeclaration]
    rcases hA : addNodeIsNew m NodeType.Function s with ⟨source, b, s1⟩
    cases b with
    | false => simp
    | true =>
      simp only []
      cases hb : sm.getBody m with
      | none => simp
      | some bd =>
        simp only []
        have hdrop : potential sm U s1 + unregWeight sm m ≤ potential sm U s :=
          potential_addNodeIsNew_drop hmU hA
        have hwge : 1 + (sm.descendantCalls bd).length ≤ unregWeight sm m := by
          rw [unregWeight, hb]
          simp only []
          omega
        rcases h3 : childCallsLoop sm f source (sm.descendantCalls bd) s1 with e | s2
        · have hne := (term_mutual sm U hC f).2.2.2.1 source (sm.descendantCalls bd)
            s1 (hC.bodyCalls m hmU bd hb) (by omega)
          rw [h3] at hne
          simpa using hne
        · simp

theorem term_declarationsLoop (sm : SourceModel) (U : List Nat)
    (hC : Closed sm U) : ∀ fuel (l : List Nat) s, (∀ d ∈ l, d ∈ U) →
    2 * potential sm U s + 2 ≤ fuel →
    declarationsLoop sm fuel l s ≠ .error .fuelExhausted := by
  intro fuel l
  induction l with
  | nil => intro s _ _; rw [declarationsLoop]; simp
  | cons d rest ih =>
    intro s hlU hfuel
    rw [declarationsLoop]
    rcases h1 : processVariableDeclaration sm fuel d true s with e | ⟨r, s1⟩
    · have hne := (term_mutual sm U hC fuel).2.2.2.2.2.2.1 d true s
        (hlU d (List.mem_cons_self _ _)) hfuel
      rw [h1] at hne
      simpa using hne
    · simp only []
      have hext : Extends s s1 :=
        (extends_mutual sm fuel).2.2.2.2.2.2.1 _ _ _ _ _ h1
      exact ih s1 (fun d' hd' => hlU d' (List.mem_cons_of_mem _ hd'))
        (by have := potential_le sm U hext.registry; omega)

theorem term_variablesLoop (sm : SourceModel) (U : List Nat)
    (hC : Closed sm U) : ∀ fuel (l : List Nat) s,
    (∀ v ∈ l, OptAll (sm.varStatement v)
      fun stmt => ∀ d ∈ sm.stmtDeclarations stmt, d ∈ U) →
    2 * potential sm U s + 2 ≤ fuel →
    variablesLoop sm fuel l s ≠ .error .fuelExhausted := by
  intro fuel l
  induction l with
  | nil => intro s _ _; rw [variablesLoop]; simp
  | cons v rest ih =>
    intro s hlU hfuel
    rw [variablesLoop]
    cases hst : sm.varStatement v with
    | none => simp
    | some stmt =>
      simp only []
      rcases h1 : declarationsLoop sm fuel (sm.stmtDeclarations stmt) s with e | s1
      · have hne := term_declarationsLoop sm U hC fuel (sm.stmtDeclarations stmt) s
          (hlU v (List.mem_cons_self _ _) stmt hst) hfuel
        rw [h1] at hne
        simpa using hne
      · simp only []
        have hext : Extends s s1 := extends_declarationsLoop h1
        exact ih s1 (fun v' hv' => hlU v' (List.mem_cons_of_mem _ hv'))
          (by have := potential_le sm U hext.registry; omega)

theorem term_functionsLoop (sm : SourceModel) (U : List Nat)
    (hC : Closed sm U) : ∀ fuel (l : List Nat) s, (∀ fn ∈ l, fn ∈ U) →
    2 * potential sm U s + 2 ≤ fuel →
    functionsLoop sm fuel l s ≠ .error .fuelExhausted := by
  intro fuel l
  induction l with
  | nil => intro s _ _; rw [functionsLoop]; simp
  | cons fn rest ih =>
    intro s hlU hfuel
    rw [functionsLoop]
    rcases h1 : processFunctionDeclaration sm fuel fn s with e | ⟨r, s1⟩
    · have hne := (term_mutual sm U hC fuel).2.2.2.2.2.2.2.1 fn s
        (hlU fn (List.mem_cons_self _ _)) hfuel
      rw [h1] at hne
      simpa using hne
    · simp only []
      have hext : Extends s s1 :=
        (extends_mutual sm fuel).2.2.2.2.2.2.2.1 _ _ _ _ h1
      exact ih s1 (fun fn' hfn' => hlU fn' (List.mem_cons_of_mem _ hfn'))
        (by have := potential_le sm U hext.registry; omega)

theorem term_methodsLoop (sm : SourceModel) (U : List Nat)
    (hC : Closed sm U) : ∀ fuel (l : List Nat) s, (∀ m ∈ l, m ∈ U) →
    2 * potential sm U s + 2 ≤ fuel →
    methodsLoop sm fuel l s ≠ .error .fuelExhausted := by
  intro fuel l
  induction l with
  | nil => intro s _ _; rw [methodsLoop]; simp
  | cons m rest ih =>
    intro s hlU hfuel
    rw [methodsLoop]
    rcases h1 : processMethodDeclaration sm fuel m s with e | ⟨r, s1⟩
    · have hne := term_processMethodDeclaration sm U hC fuel m s
        (hlU m (List.mem_cons_self _ _)) hfuel
      rw [h1] at hne
      simpa using hne
    · simp only []
      have hext : Extends s s1 := extends_processMethodDeclaration h1
      exact ih s1 (fun m' hm' => hlU m' (List.mem_cons_of_mem _ hm'))
        (by have := potential_le sm U hext.registry; omega)

theorem term_classesLoop (sm : SourceModel) (U : List Nat)
    (hC : Closed sm U) : ∀ fuel (l : List Nat) s,
    (∀ cl ∈ l, ∀ m ∈ sm.classMethods cl, m ∈ U) →
    2 * potential sm U s + 2 ≤ fuel →
    classesLoop sm fuel l s ≠ .error .fuelExhausted := by
  intro fuel l
  induction l with
  | nil => intro s _ _; rw [classesLoop]; simp
  | cons cl rest ih =>
    intro s hlU hfuel
    rw [classesLoop]
    rcases h1 : processClass sm fuel cl s with e | s1
    · have hne := term_methodsLoop sm U hC fuel (sm.classMethods cl) s
        (hlU cl (List.mem_cons_self _ _)) hfuel
      rw [processClass] at h1
      rw [h1] at hne
      simpa using hne
    · simp only []
      rw [processClass] at h1
      have hext : Extends s s1 := extends_methodsLoop h1
      exact ih s1 (fun cl' hcl' => hlU cl' (List.mem_cons_of_mem _ hcl'))
        (by have := potential_le sm U hext.registry; omega)

theorem term_filesLoop (sm : SourceModel) (U : List Nat)
    (hC : Closed sm U) : ∀ fuel (l : List Nat) s,
    (∀ file ∈ l, file ∈ sm.sourceFiles) →
    2 * potential sm U s + 2 ≤ fuel →
    filesLoop sm fuel l s ≠ .error .fuelExhausted := by
  intro fuel l
  induction l with
  | nil => intro s _ _; rw [filesLoop]; simp
  | cons file rest ih =>
    intro s hlU hfuel
    rw [filesLoop]
    have hfile : file ∈ sm.sourceFiles := hlU file (List.mem_cons_self _ _)
    rcases h1 : processFile sm fuel file s with e | s1
    · rw [processFile] at h1
      rcases h2 : processVariables sm fuel file s with e2 | sv
      · rw [h2] at h1
        simp only [Except.error.injEq] at h1
        rw [← h1]
        have hne := term_variablesLoop sm U hC fuel (sm.fileVariableDecls file) s
          (fun v hv => hC.fileVars file hfile v hv) hfuel
        rw [processVariables] at h2
        rw [h2] at hne
        simpa using hne
      · rw [h2] at h1
        simp only [] at h1
        have hextv : Extends s sv := by
          rw [processVariables] at h2
          exact extends_variablesLoop h2
        have hpotv : potential sm U sv ≤ potential sm U s :=
          potential_le sm U hextv.registry
        rcases h3 : processFunctions sm fuel file sv with e3 | sf
        · rw [h3] at h1
          simp only [Except.error.injEq] at h1
          rw [← h1]
          have hne := term_functionsLoop sm U hC fuel (sm.fileFunctions file) sv
            (fun fn hfn => hC.fileFuns file hfile fn hfn) (by omega)
          rw [processFunctions] at h3
          rw [h3] at hne
          simpa using hne
        · rw [h3] at h1
          simp only [] at h1
          have hextf : Extends sv sf := by
            rw [processFunctions] at h3
            exact extends_functionsLoop h3
          have hpotf : potential sm U sf ≤ potential sm U sv :=
            potential_le sm U hextf.registry
          rw [processClasses] at h1
          have hne := term_classesLoop sm U hC fuel (sm.fileClasses file) sf
            (fun cl hcl m hm => hC.fileMethods file hfile cl hcl m hm) (by omega)
          rw [h1] at hne
          simpa using hne
    · simp only []
      have hext : Extends s s1 := extends_processFile h1
      exact ih s1 (fun f' hf' => hlU f' (List.mem_cons_of_mem _ hf'))
        (by have := potential_le sm U hext.registry; omega)

/-- Claim C6 — termination on cyclic code: for every input whose construct
universe `U` is finite and closed under the builder's queries (every real
project's AST is), any budget of at least `2 * potential + 2` steps is
never exhausted — the build runs to completion (or to one of the program's
own structural errors), even on mutually recursive or self-referencing
call graphs.  The proof rests solely on the registry guard: every recursive
expansion happens only after `addNodeIsNew` freshly registered a construct
of `U`, which strictly decreases the remaining-weight `potential`, and a
registry hit returns without recursing. -/
theorem build_terminates (sm : SourceModel) (U : List Nat) (hC : Closed sm U)
    (fuel : Nat) (hfuel : 2 * potential sm U emptyGraph + 2 ≤ fuel) :
    buildGraph sm fuel ≠ .error .fuelExhausted := by
  rw [buildGraph]
  exact term_filesLoop sm U hC fuel sm.sourceFiles emptyGraph
    (fun file hf => hf) hfuel

/-- Witness for `build_terminates`: the mutually recursive program
`function f() { g(); }  function g() { f(); }` (source model `smRec`, one
call in each body resolving to the other declaration) builds without
exhausting an 18-step budget. -/
theorem build_terminates_witness :
    buildGraph smRec 18 ≠ .error .fuelExhausted :=
  build_terminates smRec [1, 2, 3, 4]
    ⟨by decide, by decide, by decide, by decide, by decide, by decide,
     by decide, by decide, by decide⟩ 18 (by decide)
